import Mathlib

/-!
Shallow embedding of the `avarus` server core (a control plane for voxel-world
robots) and proofs about the claims of its specification.

The embedding follows `src/server/src` of the repository: `blocks.rs` (voxel
world store and geometry), `paths.rs` (A* pathfinder), `mine.rs` (serpent
enumeration and the chunked-work tracker), `tasks.rs` (scheduler),
`depot.rs` (refuel protocol) and `turtle.rs` / `turtle_api.rs` (robot session).
Rust `i32` values are modelled as `Int` (no claim approaches the 2^31 wrap),
`usize`/`u32` counters as `Nat`.  Asynchronous interaction with a physical
robot is modelled by explicit oracle functions where a claim needs it; each
such abstraction is documented at the definition it concerns.
-/

namespace Avarus

/-- Integer voxel coordinate; embeds `Vec3 = nalgebra::Vector3<i32>`
(`blocks.rs`). -/
structure Vec3 where
  x : Int
  y : Int
  z : Int
deriving DecidableEq, Repr

/-- Componentwise addition (`Vector3::add`). -/
def Vec3.add (a b : Vec3) : Vec3 := ⟨a.x + b.x, a.y + b.y, a.z + b.z⟩

/-- Componentwise subtraction (`Vector3::sub`). -/
def Vec3.sub (a b : Vec3) : Vec3 := ⟨a.x - b.x, a.y - b.y, a.z - b.z⟩

/-- Negation. -/
def Vec3.neg (a : Vec3) : Vec3 := ⟨-a.x, -a.y, -a.z⟩

/-- Scalar multiplication (`Vector3 * i32`). -/
def Vec3.scale (a : Vec3) (n : Int) : Vec3 := ⟨a.x * n, a.y * n, a.z * n⟩

instance : Add Vec3 := ⟨Vec3.add⟩
instance : Sub Vec3 := ⟨Vec3.sub⟩
instance : Neg Vec3 := ⟨Vec3.neg⟩

/-- `Vec3::zeros()`. -/
def Vec3.zero : Vec3 := ⟨0, 0, 0⟩

/-- `Vec3::y()`, the vertical unit vector. -/
def Vec3.unitY : Vec3 := ⟨0, 1, 0⟩

/-- `v.abs()`, componentwise absolute value. -/
def Vec3.abs (a : Vec3) : Vec3 := ⟨|a.x|, |a.y|, |a.z|⟩

/-- `v.sum()`. -/
def Vec3.sum (a : Vec3) : Int := a.x + a.y + a.z

/-- `(a - b).abs().sum()`, the L1 (Manhattan) distance between two cells. -/
def Vec3.manhattan (a b : Vec3) : Int := ((a.sub b).abs).sum

/-- `v.component_mul(&w)` (componentwise product). -/
def Vec3.componentMul (a b : Vec3) : Vec3 := ⟨a.x * b.x, a.y * b.y, a.z * b.z⟩

/-- `v.product()` (product of the components), as used by `fill`'s bound. -/
def Vec3.product (a : Vec3) : Int := a.x * a.y * a.z

/-- nalgebra's `a >= b` on vectors: every component at least as large. -/
def Vec3.geAll (a b : Vec3) : Bool := b.x ≤ a.x && b.y ≤ a.y && b.z ≤ a.z

/-- nalgebra's `a < b` on vectors: every component strictly smaller. -/
def Vec3.ltAll (a b : Vec3) : Bool := a.x < b.x && a.y < b.y && a.z < b.z

/-- Facing of a robot; embeds `Direction` (`blocks.rs`). -/
inductive Direction where
  | North
  | South
  | East
  | West
deriving DecidableEq, Repr

/-- `Direction::left` (90° counterclockwise). -/
def Direction.left : Direction → Direction
  | .North => .West
  | .South => .East
  | .East => .North
  | .West => .South

/-- `Direction::right` (90° clockwise). -/
def Direction.right : Direction → Direction
  | .North => .East
  | .South => .West
  | .East => .South
  | .West => .North

/-- `Direction::unit`, the horizontal unit vector of a facing. -/
def Direction.unit : Direction → Vec3
  | .North => ⟨0, 0, -1⟩
  | .South => ⟨0, 0, 1⟩
  | .East => ⟨1, 0, 0⟩
  | .West => ⟨-1, 0, 0⟩

/-- Oriented robot pose; embeds `Position` (`blocks.rs`). -/
structure Position where
  pos : Vec3
  dir : Direction
deriving DecidableEq, Repr

/-- `Position::manhattan` (L1 distance of the cells, facings ignored). -/
def Position.manhattan (a b : Position) : Int := Vec3.manhattan a.pos b.pos

/-- The robot command vocabulary; embeds `TurtleCommand` (`turtle.rs`).
`Update` is the code-reload command (the spec calls it `ReloadCode`). -/
inductive TurtleCommand where
  | Wait (t : Nat)
  | Forward (n : Nat)
  | Backward (n : Nat)
  | Up (n : Nat)
  | Down (n : Nat)
  | Left
  | Right
  | Dig
  | DigUp
  | DigDown
  | PlaceUp
  | Place
  | PlaceDown
  | DropFront (n : Nat)
  | DropUp (n : Nat)
  | DropDown (n : Nat)
  | SuckFront (n : Nat)
  | SuckUp (n : Nat)
  | SuckDown (n : Nat)
  | Select (slot : Nat)
  | ItemInfo (slot : Nat)
  | Update
  | Poweroff
  | Refuel
  | CycleFront
  | NameFront
  | Name
deriving DecidableEq, Repr

/-- `Position::difference`: the single primitive command mapping one pose to
an adjacent one, when it exists (`blocks.rs`). -/
def Position.difference (a tgt : Position) : Option TurtleCommand :=
  if a.pos = tgt.pos then
    if tgt.dir = a.dir.left then some .Left
    else if tgt.dir = a.dir.right then some .Right
    else none
  else if tgt.dir = a.dir then
    if tgt.pos = a.pos.add a.dir.unit then some (.Forward 1)
    else if tgt.pos = a.pos.sub a.dir.unit then some (.Backward 1)
    else if tgt.pos = a.pos.add Vec3.unitY then some (.Up 1)
    else if tgt.pos = a.pos.sub Vec3.unitY then some (.Down 1)
    else none
  else none

/-- `Position::dig`: command to dig the cell `tgt` from pose `a`
(`blocks.rs`). -/
def Position.dig (a : Position) (tgt : Vec3) : Option TurtleCommand :=
  if (a.pos.sub tgt).abs.sum ≠ 1 then none
  else if a.pos.y - tgt.y = 0 then some .Dig
  else if a.pos.y - tgt.y = 1 then some .DigDown
  else if a.pos.y - tgt.y = -1 then some .DigUp
  else none

/-! ### World store (`blocks.rs`) -/

/-- A named block at a cell; embeds `Block`. -/
structure Block where
  name : String
  pos : Vec3
deriving DecidableEq, Repr

/-- `CHUNK_SIZE` (side of a cubic chunk, in cells). -/
def CHUNK_SIZE : Int := 4

/-- `CHUNK_VEC`. -/
def CHUNK_VEC : Vec3 := ⟨CHUNK_SIZE, CHUNK_SIZE, CHUNK_SIZE⟩

/-- A 4×4×4 storage tile; embeds `Chunk`.  The Rust
`[[[Option<String>; 4]; 4]; 4]` array indexed by local coordinates is
modelled as a function from local coordinates to the stored entry. -/
structure Chunk where
  pos : Vec3
  data : Vec3 → Option String

/-- `Chunk::new` (all cells absent). -/
def Chunk.new (pos : Vec3) : Chunk := ⟨pos, fun _ => none⟩

/-- `Chunk::contains`: whether the world cell `pos` lies in this chunk.
nalgebra's `local >= zeros && local < CHUNK_VEC` compares componentwise. -/
def Chunk.contains (c : Chunk) (pos : Vec3) : Bool :=
  let chunk := c.pos.componentMul CHUNK_VEC
  let local_ := pos.sub chunk
  local_.geAll Vec3.zero && local_.ltAll CHUNK_VEC

/-- `Chunk::set`.  The Rust function returns `Err("out of bounds")` when the
cell is outside the chunk; `World::set` unwraps that error (a panic, which is
unreachable from `World::set` because the chunk was selected by `contains` or
by its chunk coordinates).  The error case is modelled as `none`. -/
def Chunk.set (c : Chunk) (b : Block) : Option Chunk :=
  let chunk := c.pos.componentMul CHUNK_VEC
  if !c.contains b.pos then none
  else
    let local_ := b.pos.sub chunk
    some { c with data := fun p => if p = local_ then some b.name else c.data p }

/-- `Chunk::get`. -/
def Chunk.get (c : Chunk) (pos : Vec3) : Option Block :=
  let chunk := c.pos.componentMul CHUNK_VEC
  let local_ := pos.sub chunk
  if !c.contains pos then none
  else (c.data local_).map (fun name => ⟨name, pos⟩)

/-- Floor division of every coordinate by `CHUNK_SIZE`:
`block.map(|n| i32::div_floor(n, CHUNK_SIZE))`.  `Int.fdiv` is floor
division, exactly `i32::div_floor`. -/
def chunkCoords (v : Vec3) : Vec3 :=
  ⟨Int.fdiv v.x CHUNK_SIZE, Int.fdiv v.y CHUNK_SIZE, Int.fdiv v.z CHUNK_SIZE⟩

/-- The chunked voxel map; embeds `World`.  The Rust
`HashMap<Vec3, usize>` index is modelled as an association list (the map
never stores a key twice: `World::set` inserts a key only after looking it
up and finding nothing). -/
structure World where
  index : List (Vec3 × Nat)
  data : List Chunk
  last : Option Nat

/-- `HashMap::get` on the association list. -/
def World.lookupIndex (w : World) (key : Vec3) : Option Nat :=
  (w.index.find? (fun kv => kv.1 = key)).map (·.2)

/-- `World::new`. -/
def World.new : World := ⟨[], [], none⟩

/-- `World::get_chunk`.  Note that the Rust code rebinds `block` to the
*chunk coordinates* (`div_floor` by 4) and then asks
`self.data[last].contains(&block)` — `Chunk::contains` expects *world*
coordinates, and this call hands it chunk coordinates.  The embedding
reproduces that faithfully. -/
def World.get_chunk (w : World) (block : Vec3) : Option Chunk :=
  let block := chunkCoords block
  let viaIndex := (w.lookupIndex block).bind (fun i => w.data.get? i)
  match w.last with
  | some last =>
    match w.data.get? last with
    | some c => if c.contains block then some c else viaIndex
    | none => viaIndex
  | none => viaIndex

/-- `World::get`. -/
def World.get (w : World) (block : Vec3) : Option Block :=
  (w.get_chunk block).bind (fun c => c.get block)

/-- `List.set`-based in-place chunk update used by `World::set`'s
`self.data[chunk].set(block).unwrap()`; the unreachable error leaves the
chunk unchanged (Rust would panic there). -/
def World.setChunkAt (w : World) (i : Nat) (b : Block) : List Chunk :=
  match w.data.get? i with
  | some c => w.data.set i ((c.set b).getD c)
  | none => w.data

/-- `World::set`.  The `last` hint is consulted first (with *world*
coordinates — this call is correct, unlike the one in `get_chunk`), then the
index; either hit also rewrites `last` (`self.last.insert(n)`).  On a miss a
fresh chunk is appended and indexed, and `last` is left unchanged. -/
def World.set (w : World) (block : Block) : World :=
  let chunk_coords := chunkCoords block.pos
  let hinted : Option Nat :=
    match w.last with
    | some n =>
      match w.data.get? n with
      | some c => if c.contains block.pos then some n else w.lookupIndex chunk_coords
      | none => w.lookupIndex chunk_coords
    | none => w.lookupIndex chunk_coords
  match hinted with
  | some chunk =>
    { w with data := w.setChunkAt chunk block, last := some chunk }
  | none =>
    let new_chunk := ((Chunk.new chunk_coords).set block).getD (Chunk.new chunk_coords)
    { index := (chunk_coords, w.data.length) :: w.index,
      data := w.data ++ [new_chunk],
      last := w.last }

/-- C1.  The world round-trip property fails on the code: after
`set((5,5,5), "a")`, `set((0,0,0), "b")`, `set((0,0,0), "b")` — the third
`set` plants the last-touched hint on the chunk of `(0,0,0)` — `get((5,5,5))`
answers `none`, although the most recent `set` for `(5,5,5)` stored `"a"`
(and was still readable before the hint moved, second conjunct).
`World::get_chunk` hands chunk coordinates to `Chunk::contains`, which
expects world coordinates, so the stale hint chunk wrongly claims the queried
cell and the lookup is answered from the wrong chunk. -/
theorem c1_world_roundtrip_failure :
    (((World.new.set ⟨"a", ⟨5, 5, 5⟩⟩).set ⟨"b", ⟨0, 0, 0⟩⟩).set
        ⟨"b", ⟨0, 0, 0⟩⟩).get ⟨5, 5, 5⟩ = none ∧
    ((World.new.set ⟨"a", ⟨5, 5, 5⟩⟩).set ⟨"b", ⟨0, 0, 0⟩⟩).get ⟨5, 5, 5⟩ =
      some ⟨"a", ⟨5, 5, 5⟩⟩ := by
  constructor <;> decide

/-! ### Chunked-work tracker (`mine.rs`)

`ChunkedTask` hands out integer chunk indices.  The Rust object couples
atomics (`confirmed`, `head`) with an unbounded crossbeam channel of
cancelled indices; each public call is atomic with respect to the others, so
a sequential interleaving is modelled by one record and pure transition
functions: `Sender::send` appends at the back of `canceled`, `try_recv`
takes from the front.  Guard objects reduce to calling `mark_done`
(= `Guard::finish`) or `cancel` (= `Guard::cancel` / drop). -/

structure ChunkedTask where
  confirmed : Int
  max : Int
  head : Int
  canceled : List Int
deriving DecidableEq, Repr

/-- `ChunkedTask::new(parts)` (the `Default` fields are zero / empty). -/
def ChunkedTask.new (parts : Int) : ChunkedTask := ⟨0, parts, 0, []⟩

/-- `ChunkedTask::done`. -/
def ChunkedTask.done (s : ChunkedTask) : Bool := s.confirmed + 1 ≥ s.max

/-- `ChunkedTask::allocated`. -/
def ChunkedTask.allocated (s : ChunkedTask) : Bool :=
  s.head + 1 ≥ s.max && s.canceled.isEmpty

/-- `ChunkedTask::next_chunk`: a queued cancelled index first; otherwise
`head` is raised to `max(confirmed, head)` (the CAS loop), post-incremented,
and the prior value is returned when below `max`. -/
def ChunkedTask.next_chunk (s : ChunkedTask) : Option Int × ChunkedTask :=
  match s.canceled with
  | chunk :: rest => (some chunk, { s with canceled := rest })
  | [] =>
    let head := Max.max s.confirmed s.head
    let s := { s with head := head + 1 }
    if head < s.max then (some head, s) else (none, s)

/-- `ChunkedTask::mark_done` (reached through `Guard::finish`): raise
`confirmed` to `max(confirmed, chunk)`, but only when the cancel queue is
empty. -/
def ChunkedTask.mark_done (s : ChunkedTask) (chunk : Int) : ChunkedTask :=
  if s.canceled.length = 0 then { s with confirmed := Max.max s.confirmed chunk }
  else s

/-- `ChunkedTask::cancel` (reached through `Guard::cancel` or guard drop):
requeue the index when it is below `head`, otherwise log and drop it. -/
def ChunkedTask.cancel (s : ChunkedTask) (chunk : Int) : ChunkedTask :=
  if chunk < s.head then { s with canceled := s.canceled ++ [chunk] }
  else s

/-- C2 (counterexample).  In the max = 4 scenario — draw 0 and 1, finish 0,
cancel 1 — `next` indeed yields 1, 2, 3, `None`; but once the cancelled 1 has
been re-drawn the queue is empty again, so finishing index 3 while the
re-drawn 1 is still outstanding (it is never finished in this trace) *does*
advance `confirmed` to 3, contradicting the claim's parenthetical. -/
theorem c2_confirmed_advance_counterexample :
    let s0 := ChunkedTask.new 4
    let d0 := s0.next_chunk
    let d1 := d0.2.next_chunk
    let s := (d1.2.mark_done 0).cancel 1
    let r1 := s.next_chunk
    let r2 := r1.2.next_chunk
    let r3 := r2.2.next_chunk
    let r4 := r3.2.next_chunk
    d0.1 = some 0 ∧ d1.1 = some 1 ∧
    r1.1 = some 1 ∧ r2.1 = some 2 ∧ r3.1 = some 3 ∧ r4.1 = none ∧
    (r4.2.mark_done 3).confirmed = 3 := by decide

/-- C2 (amended).  `confirmed` is advanced only by `mark_done`, and only when
the cancel *queue* is empty (`next_chunk` and `cancel` never change it); in
the max = 4 scenario `next` yields 1 (from the cancel queue), 2, 3, `None`,
and — because re-drawing 1 empties the queue — finishing index 3 advances
`confirmed` to 3 even while the re-drawn 1 is still outstanding. -/
theorem c2_low_water_mark_amended :
    (∀ (s : ChunkedTask) (c : Int),
        s.canceled ≠ [] → (s.mark_done c).confirmed = s.confirmed) ∧
    (∀ s : ChunkedTask, s.next_chunk.2.confirmed = s.confirmed) ∧
    (∀ (s : ChunkedTask) (c : Int), (s.cancel c).confirmed = s.confirmed) ∧
    (let s0 := ChunkedTask.new 4
     let d0 := s0.next_chunk
     let d1 := d0.2.next_chunk
     let s := (d1.2.mark_done 0).cancel 1
     let r1 := s.next_chunk
     let r2 := r1.2.next_chunk
     let r3 := r2.2.next_chunk
     let r4 := r3.2.next_chunk
     d0.1 = some 0 ∧ d1.1 = some 1 ∧
     r1.1 = some 1 ∧ r2.1 = some 2 ∧ r3.1 = some 3 ∧ r4.1 = none ∧
     (r4.2.mark_done 3).confirmed = 3) := by
  refine ⟨?_, ?_, ?_, by decide⟩
  · intro s c h
    simp [ChunkedTask.mark_done, List.length_eq_zero, h]
  · intro s
    rcases s with ⟨cf, mx, hd, cq⟩
    cases cq
    · simp only [ChunkedTask.next_chunk]
      split <;> rfl
    · rfl
  · intro s c
    simp only [ChunkedTask.cancel]
    split <;> rfl

/-- C2 (witness): the amended theorem's guarded clause at a concrete state
with a non-empty cancel queue. -/
theorem c2_low_water_mark_amended_witness :
    (ChunkedTask.mk 0 4 2 [1]).canceled ≠ [] ∧
    ((ChunkedTask.mk 0 4 2 [1]).mark_done 3).confirmed =
      (ChunkedTask.mk 0 4 2 [1]).confirmed :=
  ⟨by decide, c2_low_water_mark_amended.1 (ChunkedTask.mk 0 4 2 [1]) 3 (by decide)⟩

/-! ### Scheduler (`tasks.rs`)

`Scheduler::poll` is sequential: it is called under the scheduler's
exclusive lock.  A turtle slot `(TurtleCommander, Option<AbortHandle>)` is
modelled by its position snapshot and whether a handle is present (`busy`);
`task.poll()` is a call on a boxed opaque task, modelled by recording each
task's poll outcome for the cycle as a `TaskState`; `task.run(commander)`
returns a handle, i.e. sets the chosen slot busy.  Only the assignment part
of the cycle (steps after handle reaping / shutdown) is embedded; reaping
and shutdown precede it and do not interact with the claim. -/

/-- Poll outcome of a task; embeds `TaskState`. -/
inductive TaskState where
  | Ready (hint : Position)
  | Waiting
  | Complete
deriving DecidableEq, Repr

/-- One turtle slot of `Scheduler::turtles`: the commander's position
snapshot and whether an abort handle occupies the slot. -/
structure SchedTurtle where
  pos : Position
  busy : Bool
deriving DecidableEq, Repr

/-- The `free_turtles … .filter(|t| t.0.1.is_none()).min_by_key(|(_, p)|
p.manhattan(position))` selection: index and key of the first free turtle
with minimal L1 distance to the hint (Rust's `min_by_key` returns the first
of equally minimal elements).  Free turtles' positions are snapshotted before
the task loop; they do not change during the cycle, so the snapshot equals
the stored position. -/
def minFree : List SchedTurtle → Position → Option (Nat × Int)
  | [], _ => none
  | t :: rest, hint =>
    let tail := (minFree rest hint).map (fun jk => (jk.1 + 1, jk.2))
    if t.busy then tail
    else
      match tail with
      | none => some (0, t.pos.manhattan hint)
      | some (j, k) =>
        if t.pos.manhattan hint ≤ k then some (0, t.pos.manhattan hint)
        else some (j, k)

/-- Index of the closest free turtle, if any. -/
def chooseMin (ts : List SchedTurtle) (hint : Position) : Option Nat :=
  (minFree ts hint).map (·.1)

/-- `closest_turtle.1 = Some(task.run(...))`: commit the slot. -/
def setBusy (ts : List SchedTurtle) (j : Nat) : List SchedTurtle :=
  match ts.get? j with
  | some t => ts.set j { t with busy := true }
  | none => ts

/-- The `for (i, task) in self.tasks.iter_mut().enumerate()` loop of
`Scheduler::poll`: returns the turtle slots after the loop, the `done` flag
vector, and how many tasks were polled (the loop `break`s — with the current
task counted as polled — when a `Ready` task finds no free turtle). -/
def pollTasks : List SchedTurtle → List TaskState → List SchedTurtle × List Bool × Nat
  | ts, [] => (ts, [], 0)
  | ts, task :: rest =>
    match task with
    | .Waiting =>
      let r := pollTasks ts rest
      (r.1, false :: r.2.1, r.2.2 + 1)
    | .Complete =>
      let r := pollTasks ts rest
      (r.1, true :: r.2.1, r.2.2 + 1)
    | .Ready hint =>
      match chooseMin ts hint with
      | none => (ts, false :: rest.map (fun _ => false), 1)
      | some j =>
        let r := pollTasks (setBusy ts j) rest
        (r.1, false :: r.2.1, r.2.2 + 1)

/-- `self.tasks.retain(...)` driven by the `done` flags. -/
def retainTasks (tasks : List TaskState) (ds : List Bool) : List TaskState :=
  (tasks.zip ds).filterMap (fun td => if td.2 then none else some td.1)

/-- `Scheduler::poll`, assignment part: poll the tasks, then drop the ones
flagged complete.  Returns the slots, the surviving task list and the number
of tasks polled. -/
def Scheduler.poll (ts : List SchedTurtle) (tasks : List TaskState) :
    List SchedTurtle × List TaskState × Nat :=
  let r := pollTasks ts tasks
  (r.1, retainTasks tasks r.2.1, r.2.2)

theorem minFree_none_iff (ts : List SchedTurtle) (hint : Position) :
    minFree ts hint = none ↔ ∀ t ∈ ts, t.busy = true := by
  induction ts with
  | nil => simp [minFree]
  | cons t rest ih =>
    simp only [minFree]
    rcases h' : minFree rest hint with _ | ⟨j', k'⟩ <;> cases hb : t.busy
    · simp only [hb, Bool.false_eq_true, if_false, Option.map_none']
      constructor
      · intro hx
        exact absurd hx (by simp)
      · intro hall
        have := hall t (List.mem_cons_self t rest)
        rw [hb] at this
        exact absurd this (by simp)
    · simp only [hb, if_true, Option.map_none', true_iff]
      intro a ha
      rcases List.mem_cons.mp ha with rfl | ha'
      · exact hb
      · exact (ih.mp h') a ha'
    · simp only [hb, Bool.false_eq_true, if_false, Option.map_some']
      constructor
      · intro hx
        split at hx <;> exact absurd hx (by simp)
      · intro hall
        have := hall t (List.mem_cons_self t rest)
        rw [hb] at this
        exact absurd this (by simp)
    · simp only [hb, if_true, Option.map_some']
      constructor
      · intro hx
        exact absurd hx (by simp)
      · intro hall
        have : minFree rest hint = none := ih.mpr (fun a ha => hall a (List.mem_cons_of_mem _ ha))
        rw [this] at h'
        exact Option.noConfusion h'

theorem minFree_some_spec (ts : List SchedTurtle) (hint : Position) (j : Nat) (k : Int)
    (h : minFree ts hint = some (j, k)) :
    ∃ t, ts.get? j = some t ∧ t.busy = false ∧ k = t.pos.manhattan hint ∧
      ∀ i t', ts.get? i = some t' → t'.busy = false → k ≤ t'.pos.manhattan hint := by
  induction ts generalizing j k with
  | nil => simp [minFree] at h
  | cons t rest ih =>
    simp only [minFree] at h
    rcases h' : minFree rest hint with _ | ⟨j', k'⟩ <;> rw [h'] at h <;> cases hb : t.busy <;>
      rw [hb] at h
    · -- rest has no free turtle, t free: chosen (0, t)
      simp only [Bool.false_eq_true, if_false, Option.map_none'] at h
      have hall : ∀ x ∈ rest, x.busy = true := (minFree_none_iff rest hint).mp h'
      obtain ⟨hj, hk⟩ : 0 = j ∧ t.pos.manhattan hint = k := by
        have := Option.some.inj h
        exact ⟨congrArg Prod.fst this, congrArg Prod.snd this⟩
      refine ⟨t, by rw [← hj]; rfl, hb, hk.symm, ?_⟩
      intro i t' hi ht'
      cases i with
      | zero =>
        rw [List.get?_cons_zero] at hi
        cases Option.some.inj hi
        omega
      | succ i' =>
        rw [List.get?_cons_succ] at hi
        have := hall t' (List.get?_mem hi)
        rw [this] at ht'
        exact absurd ht' (by simp)
    · -- rest has no free turtle, t busy: impossible
      simp at h
    · -- rest chooses (j', k'), t free
      simp only [Bool.false_eq_true, if_false, Option.map_some'] at h
      obtain ⟨u, hu, hub, huk, humin⟩ := ih j' k' h'
      by_cases hcmp : t.pos.manhattan hint ≤ k'
      · rw [if_pos hcmp] at h
        obtain ⟨hj, hk⟩ : 0 = j ∧ t.pos.manhattan hint = k := by
          have := Option.some.inj h
          exact ⟨congrArg Prod.fst this, congrArg Prod.snd this⟩
        refine ⟨t, by rw [← hj]; rfl, hb, hk.symm, ?_⟩
        intro i t' hi ht'
        cases i with
        | zero =>
          rw [List.get?_cons_zero] at hi
          cases Option.some.inj hi
          omega
        | succ i' =>
          rw [List.get?_cons_succ] at hi
          have := humin i' t' hi ht'
          omega
      · rw [if_neg hcmp] at h
        obtain ⟨hj, hk⟩ : j' + 1 = j ∧ k' = k := by
          have := Option.some.inj h
          exact ⟨congrArg Prod.fst this, congrArg Prod.snd this⟩
        subst hk
        refine ⟨u, by rw [← hj, List.get?_cons_succ]; exact hu, hub, huk, ?_⟩
        intro i t' hi ht'
        cases i with
        | zero =>
          rw [List.get?_cons_zero] at hi
          cases Option.some.inj hi
          omega
        | succ i' =>
          rw [List.get?_cons_succ] at hi
          exact humin i' t' hi ht'
    · -- rest chooses (j', k'), t busy
      simp only [if_true, Option.map_some'] at h
      obtain ⟨hj, hk⟩ : j' + 1 = j ∧ k' = k := by
        have := Option.some.inj h
        exact ⟨congrArg Prod.fst this, congrArg Prod.snd this⟩
      subst hk
      obtain ⟨u, hu, hub, huk, humin⟩ := ih j' k' h'
      refine ⟨u, by rw [← hj, List.get?_cons_succ]; exact hu, hub, huk, ?_⟩
      intro i t' hi ht'
      cases i with
      | zero =>
        rw [List.get?_cons_zero] at hi
        cases Option.some.inj hi
        rw [ht'] at hb
        exact Bool.noConfusion hb
      | succ i' =>
        rw [List.get?_cons_succ] at hi
        exact humin i' t' hi ht'


theorem pollTasks_pos (ts : List SchedTurtle) (task : TaskState) (rest : List TaskState) :
    1 ≤ (pollTasks ts (task :: rest)).2.2 := by
  rcases task with hint | _ | _ <;> simp only [pollTasks]
  · rcases h : chooseMin ts hint with _ | j <;> simp
  · simp
  · simp

theorem pollTasks_le (ts : List SchedTurtle) (tasks : List TaskState) :
    (pollTasks ts tasks).2.2 ≤ tasks.length := by
  induction tasks generalizing ts with
  | nil => simp [pollTasks]
  | cons task rest ih =>
    rcases task with hint | _ | _ <;> simp only [pollTasks]
    · rcases h : chooseMin ts hint with _ | j
      · simp
      · simpa using Nat.succ_le_succ (ih (setBusy ts j))
    · simpa using Nat.succ_le_succ (ih ts)
    · simpa using Nat.succ_le_succ (ih ts)

theorem pollTasks_flags_len (ts : List SchedTurtle) (tasks : List TaskState) :
    (pollTasks ts tasks).2.1.length = tasks.length := by
  induction tasks generalizing ts with
  | nil => simp [pollTasks]
  | cons task rest ih =>
    rcases task with hint | _ | _ <;> simp only [pollTasks]
    · rcases h : chooseMin ts hint with _ | j
      · simp
      · simpa using ih (setBusy ts j)
    · simpa using ih ts
    · simpa using ih ts

theorem pollTasks_break (ts : List SchedTurtle) (tasks : List TaskState)
    (h : (pollTasks ts tasks).2.2 < tasks.length) :
    ∃ hint, tasks.get? ((pollTasks ts tasks).2.2 - 1) = some (.Ready hint) ∧
      ∀ t ∈ (pollTasks ts tasks).1, t.busy = true := by
  induction tasks generalizing ts with
  | nil => simp [pollTasks] at h
  | cons task rest ih =>
    rcases task with hint | _ | _
    · rcases hc : chooseMin ts hint with _ | j
      · refine ⟨hint, ?_, ?_⟩
        · simp [pollTasks, hc]
        · simp only [pollTasks, hc]
          intro t ht
          simp only [chooseMin] at hc
          exact (minFree_none_iff ts hint).mp (Option.map_eq_none'.mp hc) t ht
      · simp only [pollTasks, hc] at h ⊢
        have h' : (pollTasks (setBusy ts j) rest).2.2 < rest.length := by
          simp at h
          omega
        obtain ⟨hint', hget, hbusy⟩ := ih (setBusy ts j) h'
        have hpos : 1 ≤ (pollTasks (setBusy ts j) rest).2.2 := by
          rcases rest with _ | ⟨r0, rrest⟩
          · simp [pollTasks] at h'
          · exact pollTasks_pos _ _ _
        refine ⟨hint', ?_, hbusy⟩
        have : (pollTasks (setBusy ts j) rest).2.2 + 1 - 1 =
            ((pollTasks (setBusy ts j) rest).2.2 - 1) + 1 := by omega
        rw [this, List.get?_cons_succ]
        exact hget
    · simp only [pollTasks] at h ⊢
      have h' : (pollTasks ts rest).2.2 < rest.length := by simp at h; omega
      obtain ⟨hint', hget, hbusy⟩ := ih ts h'
      have hpos : 1 ≤ (pollTasks ts rest).2.2 := by
        rcases rest with _ | ⟨r0, rrest⟩
        · simp [pollTasks] at h'
        · exact pollTasks_pos _ _ _
      refine ⟨hint', ?_, hbusy⟩
      have : (pollTasks ts rest).2.2 + 1 - 1 = ((pollTasks ts rest).2.2 - 1) + 1 := by omega
      rw [this, List.get?_cons_succ]
      exact hget
    · simp only [pollTasks] at h ⊢
      have h' : (pollTasks ts rest).2.2 < rest.length := by simp at h; omega
      obtain ⟨hint', hget, hbusy⟩ := ih ts h'
      have hpos : 1 ≤ (pollTasks ts rest).2.2 := by
        rcases rest with _ | ⟨r0, rrest⟩
        · simp [pollTasks] at h'
        · exact pollTasks_pos _ _ _
      refine ⟨hint', ?_, hbusy⟩
      have : (pollTasks ts rest).2.2 + 1 - 1 = ((pollTasks ts rest).2.2 - 1) + 1 := by omega
      rw [this, List.get?_cons_succ]
      exact hget


theorem pollTasks_complete_removed (ts : List SchedTurtle) (tasks : List TaskState) (j : Nat)
    (hj : j < (pollTasks ts tasks).2.2) (hc : tasks.get? j = some .Complete) :
    (pollTasks ts tasks).2.1.get? j = some true := by
  induction tasks generalizing ts j with
  | nil => simp [pollTasks] at hj
  | cons task rest ih =>
    rcases task with hint | _ | _
    · rcases hcm : chooseMin ts hint with _ | i
      · simp only [pollTasks, hcm] at hj ⊢
        simp at hj
        subst hj
        rw [List.get?_cons_zero] at hc
        exact absurd (Option.some.inj hc) (by simp)
      · simp only [pollTasks, hcm] at hj ⊢
        cases j with
        | zero =>
          rw [List.get?_cons_zero] at hc
          exact absurd (Option.some.inj hc) (by simp)
        | succ j' =>
          rw [List.get?_cons_succ] at hc ⊢
          simp at hj
          exact ih (setBusy ts i) j' (by omega) hc
    · simp only [pollTasks] at hj ⊢
      cases j with
      | zero =>
        rw [List.get?_cons_zero] at hc
        exact absurd (Option.some.inj hc) (by simp)
      | succ j' =>
        rw [List.get?_cons_succ] at hc ⊢
        simp at hj
        exact ih ts j' (by omega) hc
    · simp only [pollTasks] at hj ⊢
      cases j with
      | zero => rfl
      | succ j' =>
        rw [List.get?_cons_succ] at hc ⊢
        simp at hj
        exact ih ts j' (by omega) hc

theorem pollTasks_flag_complete (ts : List SchedTurtle) (tasks : List TaskState) (j : Nat)
    (hf : (pollTasks ts tasks).2.1.get? j = some true) :
    tasks.get? j = some .Complete ∧ j < (pollTasks ts tasks).2.2 := by
  induction tasks generalizing ts j with
  | nil => simp [pollTasks] at hf
  | cons task rest ih =>
    rcases task with hint | _ | _
    · rcases hcm : chooseMin ts hint with _ | i
      · simp only [pollTasks, hcm] at hf ⊢
        cases j with
        | zero => exact absurd (Option.some.inj hf) (by simp)
        | succ j' =>
          rw [List.get?_cons_succ, List.get?_map] at hf
          rcases hrest : rest.get? j' with _ | x <;> rw [hrest] at hf
          · exact Option.noConfusion hf
          · exact absurd (Option.some.inj hf) (by simp)
      · simp only [pollTasks, hcm] at hf ⊢
        cases j with
        | zero => exact absurd (Option.some.inj hf) (by simp)
        | succ j' =>
          rw [List.get?_cons_succ] at hf ⊢
          obtain ⟨h1, h2⟩ := ih (setBusy ts i) j' hf
          exact ⟨h1, by omega⟩
    · simp only [pollTasks] at hf ⊢
      cases j with
      | zero => exact absurd (Option.some.inj hf) (by simp)
      | succ j' =>
        rw [List.get?_cons_succ] at hf ⊢
        obtain ⟨h1, h2⟩ := ih ts j' hf
        exact ⟨h1, by omega⟩
    · simp only [pollTasks] at hf ⊢
      cases j with
      | zero => exact ⟨rfl, by omega⟩
      | succ j' =>
        rw [List.get?_cons_succ] at hf ⊢
        obtain ⟨h1, h2⟩ := ih ts j' hf
        exact ⟨h1, by omega⟩

/-- C6 (counterexample).  With no free robot, the poll cycle `break`s at the
first `Ready` task: of the three tasks only one is polled, the second
`Ready` task is never considered, and the trailing `Complete` task is *not*
removed in that cycle. -/
theorem c6_fairness_counterexample :
    Scheduler.poll []
        [TaskState.Ready ⟨⟨0, 0, 0⟩, .North⟩, TaskState.Ready ⟨⟨1, 0, 0⟩, .North⟩,
          TaskState.Complete] =
      ([],
        [TaskState.Ready ⟨⟨0, 0, 0⟩, .North⟩, TaskState.Ready ⟨⟨1, 0, 0⟩, .North⟩,
          TaskState.Complete], 1) := by decide

/-- C6 (amended).  In a poll cycle the tasks are considered in order only up
to the first `Ready` task for which no free robot remains: there the loop
stops (conjunct 2: when fewer tasks were polled than exist, the last polled
task is `Ready` and every robot slot is busy), leaving later tasks unpolled;
a polled `Complete` task is flagged and removed, and only polled `Complete`
tasks are (conjuncts 3–4); a `Ready` task that does find a free robot is
committed to the free robot whose snapshot position minimises the L1
distance to the task's hint, the first such robot on ties (conjunct 5, the
`min_by_key` selection), and the selection fails exactly when every robot
slot is busy (conjunct 6). -/
theorem c6_scheduler_poll_amended :
    (∀ (ts : List SchedTurtle) (tasks : List TaskState),
        (pollTasks ts tasks).2.2 ≤ tasks.length) ∧
    (∀ (ts : List SchedTurtle) (tasks : List TaskState),
        (pollTasks ts tasks).2.2 < tasks.length →
          ∃ hint, tasks.get? ((pollTasks ts tasks).2.2 - 1) = some (.Ready hint) ∧
            ∀ t ∈ (pollTasks ts tasks).1, t.busy = true) ∧
    (∀ (ts : List SchedTurtle) (tasks : List TaskState) (j : Nat),
        j < (pollTasks ts tasks).2.2 → tasks.get? j = some .Complete →
          (pollTasks ts tasks).2.1.get? j = some true) ∧
    (∀ (ts : List SchedTurtle) (tasks : List TaskState) (j : Nat),
        (pollTasks ts tasks).2.1.get? j = some true →
          tasks.get? j = some .Complete ∧ j < (pollTasks ts tasks).2.2) ∧
    (∀ (ts : List SchedTurtle) (hint : Position) (j : Nat) (k : Int),
        minFree ts hint = some (j, k) →
          ∃ t, ts.get? j = some t ∧ t.busy = false ∧ k = t.pos.manhattan hint ∧
            ∀ i t', ts.get? i = some t' → t'.busy = false →
              k ≤ t'.pos.manhattan hint) ∧
    (∀ (ts : List SchedTurtle) (hint : Position),
        chooseMin ts hint = none ↔ ∀ t ∈ ts, t.busy = true) := by
  refine ⟨pollTasks_le, pollTasks_break, pollTasks_complete_removed,
    pollTasks_flag_complete, fun ts hint j k h => minFree_some_spec ts hint j k h, ?_⟩
  intro ts hint
  rw [show (chooseMin ts hint = none) = (minFree ts hint = none) from
    propext (by simp [chooseMin])]
  exact minFree_none_iff ts hint

/-- C6 (witness): the amended theorem's break clause, at one free-robot-less
state with a `Ready` task followed by another task. -/
theorem c6_scheduler_poll_amended_witness :
    (pollTasks [] [TaskState.Ready ⟨⟨0, 0, 0⟩, .North⟩, TaskState.Waiting]).2.2 <
      [TaskState.Ready ⟨⟨0, 0, 0⟩, .North⟩, TaskState.Waiting].length ∧
    ∃ hint,
      [TaskState.Ready ⟨⟨0, 0, 0⟩, .North⟩, TaskState.Waiting].get?
          ((pollTasks [] [TaskState.Ready ⟨⟨0, 0, 0⟩, .North⟩, TaskState.Waiting]).2.2 - 1) =
        some (.Ready hint) ∧
      ∀ t ∈ (pollTasks [] [TaskState.Ready ⟨⟨0, 0, 0⟩, .North⟩, TaskState.Waiting]).1,
        t.busy = true :=
  ⟨by decide, c6_scheduler_poll_amended.2.1 [] _ (by decide)⟩

/-! ### `TurtleCommander::goto` (`turtle.rs`)

`goto` plans with the pathfinder and walks the route one command at a time,
updating `recent` from each reply.  The planning call and the inner walking
loop interact with the live world and the physical robot, so they are
abstracted by two oracles indexed by the iteration number: `routeFn i p` is
what `route(recent, pos, &world).await` produces on the i-th pass (the world
may have changed between passes), and `walkFn i p r` is the pose `recent`
holds after the `'route` walking loop over route `r` (the loop always
terminates: it either finishes the route or `break`s on an occupied cell or
a command failure).  The control skeleton — the `RETRIES`-bounded loop, the
`?` on the routing result, and the `Some(())` fall-through — is the verbatim
structure of `turtle.rs:311-363`. -/

/-- `RETRIES` (`turtle.rs:48`). -/
def RETRIES : Nat := 42

/-- The `loop` of `TurtleCommander::goto`, with `attempts` as the Rust
counter value at the top of an iteration: `break` when the target is
reached, `break` when the decremented counter hits zero, propagate `None`
when routing fails, otherwise walk and repeat. -/
def gotoAux (routeFn : Nat → Position → Option (List Position))
    (walkFn : Nat → Position → List Position → Position) (target : Position) :
    Nat → Nat → Position → Option Unit
  | _, 0, _ => some ()
  | iter, attempts + 1, recent =>
    if recent = target then some ()
    else if attempts = 0 then some ()
    else
      match routeFn iter recent with
      | none => none
      | some r => gotoAux routeFn walkFn target (iter + 1) attempts (walkFn iter recent r)

/-- `TurtleCommander::goto`: start with `attempts = RETRIES + 1`. -/
def goto (routeFn : Nat → Position → Option (List Position))
    (walkFn : Nat → Position → List Position → Position)
    (start target : Position) : Option Unit :=
  gotoAux routeFn walkFn target 0 (RETRIES + 1) start

/-- C5 (counterexample).  A robot whose walking never makes progress while
routing always succeeds: `goto` exhausts its 42 replan attempts and then
returns `Some(())` — the success-shaped value — not `None` as the claim
asserts for retry exhaustion.  (`None` is produced only by a routing
failure, which propagates immediately through `?` instead of being
replanned, the other half of the claim.) -/
theorem c5_goto_retry_counterexample :
    goto (fun _ p => some [p]) (fun _ p _ => p)
        ⟨⟨0, 0, 0⟩, .North⟩ ⟨⟨9, 0, 0⟩, .North⟩ = some () ∧
    goto (fun _ _ => none) (fun _ p _ => p)
        ⟨⟨0, 0, 0⟩, .North⟩ ⟨⟨9, 0, 0⟩, .North⟩ = none := by
  constructor <;> decide

/-- C5 (amended).  `goto` gives up after at most `RETRIES` (42) replanning
passes but then yields `Some(())`, not `None`: whenever the route oracle
never fails, `goto` returns `Some(())` (conjunct 1); `None` arises exactly
from a failed routing call, and it propagates immediately — if the very
first routing attempt fails (and the robot is not already at the target),
`goto` is `None` without any replanning (conjunct 2). -/
theorem c5_goto_amended :
    (∀ (routeFn : Nat → Position → Option (List Position))
        (walkFn : Nat → Position → List Position → Position) (start target : Position),
        (∀ i p, (routeFn i p).isSome) →
          goto routeFn walkFn start target = some ()) ∧
    (∀ (routeFn : Nat → Position → Option (List Position))
        (walkFn : Nat → Position → List Position → Position) (start target : Position),
        start ≠ target → routeFn 0 start = none →
          goto routeFn walkFn start target = none) := by
  constructor
  · intro routeFn walkFn start target hsome
    have main : ∀ (fuel iter : Nat) (recent : Position),
        gotoAux routeFn walkFn target iter fuel recent = some () := by
      intro fuel
      induction fuel with
      | zero => intro iter recent; rfl
      | succ a ih =>
        intro iter recent
        by_cases h1 : recent = target
        · simp [gotoAux, h1]
        · by_cases h2 : a = 0
          · simp [gotoAux, h1, h2]
          · rcases hr : routeFn iter recent with _ | r
            · have := hsome iter recent
              rw [hr] at this
              exact absurd this (by simp)
            · simp [gotoAux, h1, h2, hr]
              exact ih (iter + 1) (walkFn iter recent r)
    exact main (RETRIES + 1) 0 start
  · intro routeFn walkFn start target hne hroute
    simp [goto, gotoAux, hne, RETRIES, hroute]

/-- C5 (witness): both amended clauses at concrete oracles. -/
theorem c5_goto_amended_witness :
    goto (fun _ p => some [p]) (fun _ p _ => p)
        ⟨⟨0, 0, 0⟩, .North⟩ ⟨⟨3, 0, 0⟩, .North⟩ = some () ∧
    goto (fun _ _ => none) (fun _ p _ => p)
        ⟨⟨0, 0, 0⟩, .North⟩ ⟨⟨3, 0, 0⟩, .North⟩ = none :=
  ⟨c5_goto_amended.1 (fun _ p => some [p]) (fun _ p _ => p) _ _ (fun _ _ => by simp),
   c5_goto_amended.2 (fun _ _ => none) (fun _ p _ => p) _ _ (by decide) rfl⟩

/-! ### Depot refuel protocol (`depot.rs`)

`depot::refuel` drives one robot: `turtle.execute(cmd).await` sends a
command and the reply updates the robot's stored fuel.  The robot side is
abstracted as an oracle `exec` mapping the command trace so far and the new
command to the reply and the fuel stored after the reply; `fuel_limit` is
the constant `turtle.fuel_limit()`.  The Rust `while` loop has no bound, so
the embedding carries an explicit iteration budget `gas` and returns the
trace unchanged when it runs out (none of the claims depends on the
divergent case). -/

/-- Replies of a robot; embeds `TurtleCommandResponse` (`turtle.rs`).
Payloads irrelevant to the claims (`Item`, `Inventory`, `Name`) are kept
with simplified fields. -/
inductive TurtleCommandResponse where
  | None
  | Success
  | Failure
  | Item (name : String) (count : Nat)
  | Inventory
  | Name (s : String)
deriving DecidableEq, Repr

/-- The robot-side oracle for one refuel session: given the commands issued
so far and the next command, the reply and the fuel value the commander
stores after it. -/
structure RefuelEnv where
  fuel_limit : Nat
  exec : List TurtleCommand → TurtleCommand → TurtleCommandResponse × Nat

/-- The `while turtle.fuel() + 1000 < limit` loop of `depot::refuel`:
`SuckFront(64)`, `Refuel`, `DropDown(64)`; on a `Failure` reply accept when
the (post-`DropDown`) fuel is strictly above 1500, else `Wait(15)` and
retry.  Returns the full command trace and the final stored fuel. -/
def refuelLoop (env : RefuelEnv) : Nat → Nat → List TurtleCommand →
    List TurtleCommand × Nat
  | 0, fuel, trace => (trace, fuel)
  | gas + 1, fuel, trace =>
    if fuel + 1000 < env.fuel_limit then
      let _s1 := env.exec trace (.SuckFront 64)
      let t1 := trace ++ [TurtleCommand.SuckFront 64]
      let s2 := env.exec t1 .Refuel
      let t2 := t1 ++ [TurtleCommand.Refuel]
      let s3 := env.exec t2 (.DropDown 64)
      let t3 := t2 ++ [TurtleCommand.DropDown 64]
      if s2.1 = .Failure then
        if s3.2 > 1500 then (t3, s3.2)
        else
          let s4 := env.exec t3 (.Wait 15)
          refuelLoop env gas s4.2 (t3 ++ [TurtleCommand.Wait 15])
      else refuelLoop env gas s3.2 t3
    else (trace, fuel)

/-- `depot::refuel`: `Select(1)` once, then the loop (the stored fuel read
by the first guard is the one the `Select` reply carried). -/
def refuel (env : RefuelEnv) (gas : Nat) : List TurtleCommand × Nat :=
  let s0 := env.exec [] (.Select 1)
  refuelLoop env gas s0.2 [TurtleCommand.Select 1]

/-- The loop body emits no `Select`: whatever `refuelLoop` appends to the
trace is `Select`-free. -/
theorem refuelLoop_no_select (env : RefuelEnv) :
    ∀ (gas fuel : Nat) (trace : List TurtleCommand),
      ∃ s, (refuelLoop env gas fuel trace).1 = trace ++ s ∧
        ∀ n, TurtleCommand.Select n ∉ s := by
  intro gas
  induction gas with
  | zero => exact fun fuel trace => ⟨[], by simp [refuelLoop]⟩
  | succ g ih =>
    intro fuel trace
    by_cases hg : fuel + 1000 < env.fuel_limit
    · simp only [refuelLoop, if_pos hg]
      by_cases hr :
          (env.exec (trace ++ [TurtleCommand.SuckFront 64]) .Refuel).1 = .Failure
      · rw [if_pos hr]
        by_cases hf :
            (env.exec (trace ++ [TurtleCommand.SuckFront 64] ++ [TurtleCommand.Refuel])
              (.DropDown 64)).2 > 1500
        · rw [if_pos hf]
          refine ⟨[TurtleCommand.SuckFront 64, TurtleCommand.Refuel,
            TurtleCommand.DropDown 64], by simp, by intro n; simp⟩
        · rw [if_neg hf]
          obtain ⟨s, hs, hns⟩ := ih _ (trace ++ [TurtleCommand.SuckFront 64] ++
            [TurtleCommand.Refuel] ++ [TurtleCommand.DropDown 64] ++ [TurtleCommand.Wait 15])
          rw [hs]
          refine ⟨[TurtleCommand.SuckFront 64, TurtleCommand.Refuel,
            TurtleCommand.DropDown 64, TurtleCommand.Wait 15] ++ s, by simp, ?_⟩
          intro n
          simp only [List.mem_append]
          rintro (h | h)
          · simp at h
          · exact hns n h
      · rw [if_neg hr]
        obtain ⟨s, hs, hns⟩ := ih _ (trace ++ [TurtleCommand.SuckFront 64] ++
          [TurtleCommand.Refuel] ++ [TurtleCommand.DropDown 64])
        rw [hs]
        refine ⟨[TurtleCommand.SuckFront 64, TurtleCommand.Refuel,
          TurtleCommand.DropDown 64] ++ s, by simp, ?_⟩
        intro n
        simp only [List.mem_append]
        rintro (h | h)
        · simp at h
        · exact hns n h
    · exact ⟨[], by simp [refuelLoop, if_neg hg]⟩

/-- C7 (counterexample).  Against a depot whose fuel packets leave the robot
at exactly 1500 fuel and whose `Refuel` replies are `Failure` (partial
refuel), the loop does *not* accept at 1500 — it issues `Wait(15)` and runs
a further full iteration — although the claim says fuel ≥ 1500 is accepted;
and `Select(1)` appears exactly once at the start of the two-iteration
trace, although the claim repeats it inside the loop. -/
theorem c7_refuel_boundary_counterexample :
    refuel ⟨10000, fun _ c => (if c = .Refuel then .Failure else .Success, 1500)⟩ 2 =
      ([.Select 1, .SuckFront 64, .Refuel, .DropDown 64, .Wait 15,
        .SuckFront 64, .Refuel, .DropDown 64, .Wait 15], 1500) := by decide

/-- C7 (amended).  `Select(1)` is issued exactly once, before the loop
(conjunct 1: every refuel trace is `Select 1` followed by a `Select`-free
suffix); the loop exits when `fuel + 1000 ≥ limit` (conjunct 2); each
iteration is `SuckFront(64)`, `Refuel`, `DropDown(64)`, and on a `Failure`
(partial refuel) reply it accepts only when the fuel is *strictly above*
1500 (conjunct 3), while at fuel ≤ 1500 — including exactly 1500 — it issues
`Wait(15)` and retries (conjunct 4). -/
theorem c7_refuel_amended :
    (∀ (env : RefuelEnv) (gas : Nat),
        ∃ s, (refuel env gas).1 = TurtleCommand.Select 1 :: s ∧
          ∀ n, TurtleCommand.Select n ∉ s) ∧
    (∀ (env : RefuelEnv) (gas fuel : Nat) (trace : List TurtleCommand),
        ¬ fuel + 1000 < env.fuel_limit →
          refuelLoop env (gas + 1) fuel trace = (trace, fuel)) ∧
    (∀ (env : RefuelEnv) (gas fuel : Nat) (trace : List TurtleCommand),
        fuel + 1000 < env.fuel_limit →
        (env.exec (trace ++ [TurtleCommand.SuckFront 64]) .Refuel).1 = .Failure →
        (env.exec (trace ++ [TurtleCommand.SuckFront 64] ++ [TurtleCommand.Refuel])
            (.DropDown 64)).2 > 1500 →
          refuelLoop env (gas + 1) fuel trace =
            (trace ++ [TurtleCommand.SuckFront 64] ++ [TurtleCommand.Refuel] ++
                [TurtleCommand.DropDown 64],
              (env.exec (trace ++ [TurtleCommand.SuckFront 64] ++ [TurtleCommand.Refuel])
                (.DropDown 64)).2)) ∧
    (∀ (env : RefuelEnv) (gas fuel : Nat) (trace : List TurtleCommand),
        fuel + 1000 < env.fuel_limit →
        (env.exec (trace ++ [TurtleCommand.SuckFront 64]) .Refuel).1 = .Failure →
        ¬ (env.exec (trace ++ [TurtleCommand.SuckFront 64] ++ [TurtleCommand.Refuel])
            (.DropDown 64)).2 > 1500 →
          refuelLoop env (gas + 1) fuel trace =
            refuelLoop env gas
              (env.exec (trace ++ [TurtleCommand.SuckFront 64] ++ [TurtleCommand.Refuel] ++
                  [TurtleCommand.DropDown 64]) (.Wait 15)).2
              (trace ++ [TurtleCommand.SuckFront 64] ++ [TurtleCommand.Refuel] ++
                [TurtleCommand.DropDown 64] ++ [TurtleCommand.Wait 15])) := by
  refine ⟨?_, ?_, ?_, ?_⟩
  · intro env gas
    obtain ⟨s, hs, hns⟩ := refuelLoop_no_select env gas
      (env.exec [] (.Select 1)).2 [TurtleCommand.Select 1]
    exact ⟨s, by simpa [refuel] using hs, hns⟩
  · intro env gas fuel trace hg
    simp [refuelLoop, hg]
  · intro env gas fuel trace hg hr hf
    simp only [refuelLoop, if_pos hg, if_pos hr, if_pos hf]
  · intro env gas fuel trace hg hr hf
    simp only [refuelLoop, if_pos hg, if_pos hr, if_neg hf]

/-- C7 (witness): the retry clause at a concrete depot leaving the robot at
exactly 1500 fuel, and the Select-once clause on the same session. -/
theorem c7_refuel_amended_witness :
    (∃ s, (refuel ⟨10000, fun _ c => (if c = .Refuel then .Failure else .Success, 1500)⟩
        2).1 = TurtleCommand.Select 1 :: s ∧ ∀ n, TurtleCommand.Select n ∉ s) ∧
    refuelLoop ⟨10000, fun _ c => (if c = .Refuel then .Failure else .Success, 1500)⟩
        1 1500 [TurtleCommand.Select 1] =
      refuelLoop ⟨10000, fun _ c => (if c = .Refuel then .Failure else .Success, 1500)⟩
        0 1500
        ([TurtleCommand.Select 1] ++ [TurtleCommand.SuckFront 64] ++ [TurtleCommand.Refuel] ++
          [TurtleCommand.DropDown 64] ++ [TurtleCommand.Wait 15]) :=
  ⟨c7_refuel_amended.1 _ 2,
    by
      have := c7_refuel_amended.2.2.2
        ⟨10000, fun _ c => (if c = .Refuel then .Failure else .Success, 1500)⟩
        0 1500 [TurtleCommand.Select 1] (by decide) (by decide) (by decide)
      simpa using this⟩

/-! ### Robot session (`turtle.rs` / `turtle_api.rs`)

`process_turtle_update` runs with the turtle's write lock held, so one
update is processed atomically; the embedding is the straight-line function
of `turtle.rs:426-504`.  The async pieces are modelled by data: the stashed
`oneshot` reply handle `callback` is a flag (taking it and sending the info
is reported as the `delivered` component of the result), and the
`timeout(COMMAND_TIMEOUT, recv.recv())` read of the one-slot inbox is the
`inbox` argument (`none` = timeout or closed channel).  `LiveState` — whose
defining module is not present under `src/` (the `main.rs` in the tree is an
older revision) — is reconstructed from its uses in `turtle.rs` and
`turtle_api.rs`: a dense vector of turtles (ids are assigned as `turtles.len()`
on creation) plus the shared world. -/

/-- One robot's server-side state; embeds the persistent fields of `Turtle`
(`turtle.rs:50-65`) plus the stashed reply handle as a flag. -/
structure Turtle where
  name : Nat
  fuel : Nat
  fuel_limit : Nat
  queued_movement : Vec3
  position : Position
  pending_update : Bool
  callback : Bool
deriving DecidableEq, Repr

/-- An incoming robot update; embeds `TurtleUpdate`. -/
structure TurtleUpdate where
  fuel : Nat
  ahead : String
  above : String
  below : String
  ret : TurtleCommandResponse
deriving DecidableEq, Repr

/-- The reply delivered to a waiting caller; embeds `TurtleInfo`. -/
structure TurtleInfo where
  name : Nat
  pos : Position
  fuel : Nat
  ahead : String
  above : String
  below : String
  ret : TurtleCommandResponse
deriving DecidableEq, Repr

/-- Server state as visible to the session; reconstructed (see section
comment). -/
structure LiveState where
  turtles : List Turtle
  world : World

/-- Replace turtle slot `id` (the Rust code mutates it through its lock). -/
def LiveState.setTurtle (st : LiveState) (id : Nat) (t : Turtle) : LiveState :=
  { st with turtles := st.turtles.set id t }

/-- `TurtleCommand::unit` (`turtle.rs:575-584`). -/
def TurtleCommand.unit (c : TurtleCommand) (direction : Direction) : Vec3 :=
  match c with
  | .Forward _ => direction.unit
  | .Backward _ => direction.unit.neg
  | .Up _ => Vec3.unitY
  | .Down _ => Vec3.unitY.neg
  | _ => Vec3.zero

/-- `IDLE_TIME` (`turtle.rs:46`). -/
def IDLE_TIME : Nat := 3

/-- `process_turtle_update` (`turtle.rs:426-504`).  Returns the new state,
the reply for the robot (`none` means idle: the API layer turns it into
`Wait(IDLE_TIME)`), and the info delivered to a waiting caller, if any. -/
def process_turtle_update (st : LiveState) (id : Nat) (update : TurtleUpdate)
    (inbox : Option TurtleCommand) :
    LiveState × Option TurtleCommand × Option TurtleInfo :=
  match st.turtles.get? id with
  | none => (st, some .Poweroff, none)
  | some turtle =>
    if turtle.pending_update then
      (st.setTurtle id { turtle with pending_update := false }, some .Update, none)
    else
      let turtle :=
        if turtle.fuel > update.fuel then
          let diff := turtle.fuel - update.fuel
          { turtle with
            position := { turtle.position with
              pos := turtle.position.pos.add (turtle.queued_movement.scale diff) },
            queued_movement := Vec3.zero }
        else turtle
      let turtle := { turtle with fuel := update.fuel }
      let w := st.world.set ⟨update.above, turtle.position.pos.add Vec3.unitY⟩
      let w := w.set ⟨update.ahead, turtle.position.pos.add turtle.position.dir.unit⟩
      let w := w.set ⟨update.below, turtle.position.pos.sub Vec3.unitY⟩
      let info : TurtleInfo :=
        ⟨turtle.name, turtle.position, update.fuel, update.ahead, update.above,
          update.below, update.ret⟩
      let delivered := if turtle.callback then some info else none
      let turtle := { turtle with callback := false }
      match inbox with
      | some cmd =>
        let turtle := { turtle with callback := true }
        let turtle :=
          match cmd with
          | .Left => { turtle with position := { turtle.position with
              dir := turtle.position.dir.left } }
          | .Right => { turtle with position := { turtle.position with
              dir := turtle.position.dir.right } }
          | _ => turtle
        let turtle := { turtle with queued_movement := cmd.unit turtle.position.dir }
        ({ turtles := st.turtles.set id turtle, world := w }, some cmd, delivered)
      | none =>
        ({ turtles := st.turtles.set id turtle, world := w }, none, delivered)

/-- The `/turtle/{id}/update` endpoint `command` (`turtle_api.rs:258-291`):
ids strictly above `turtles.len()` are answered `Update` before the session
runs; otherwise the session's reply is used, an idle session becoming
`Wait(IDLE_TIME)`. -/
def command (st : LiveState) (id : Nat) (update : TurtleUpdate)
    (inbox : Option TurtleCommand) : TurtleCommand :=
  if id > st.turtles.length then .Update
  else
    match (process_turtle_update st id update inbox).2.1 with
    | some c => c
    | none => .Wait IDLE_TIME

/-- C10.  An update processed while `pending_update` is set is answered with
the code-reload command (`Update`) and only clears the flag: the whole
result state equals the input with just that one bit flipped, so the world
store, the stored fuel, position, queued movement and the stashed caller are
untouched and nothing is delivered to a caller. -/
theorem c10_pending_update_frame : ∀ (st : LiveState) (id : Nat) (t : Turtle)
    (u : TurtleUpdate) (inbox : Option TurtleCommand),
    st.turtles.get? id = some t → t.pending_update = true →
    process_turtle_update st id u inbox =
      (st.setTurtle id { t with pending_update := false }, some .Update, none) ∧
    (process_turtle_update st id u inbox).1.world = st.world ∧
    (process_turtle_update st id u inbox).1.turtles.get? id =
      some { t with pending_update := false } := by
  intro st id t u inbox h hp
  have hmain : process_turtle_update st id u inbox =
      (st.setTurtle id { t with pending_update := false }, some .Update, none) := by
    simp only [process_turtle_update, h, hp, if_true]
  refine ⟨hmain, by rw [hmain]; rfl, ?_⟩
  rw [hmain]
  have hlt : id < st.turtles.length := by
    rcases List.get?_eq_some.mp h with ⟨hl, _⟩
    exact hl
  simp [LiveState.setTurtle, List.get?_set_eq, hlt]

/-- C10 (witness): one robot with the flag set, a non-trivial update. -/
theorem c10_pending_update_frame_witness :
    let t : Turtle := ⟨0, 7, 100, ⟨0, 0, -1⟩, ⟨⟨1, 2, 3⟩, .North⟩, true, true⟩
    let st : LiveState := ⟨[t], World.new⟩
    let u : TurtleUpdate := ⟨5, "minecraft:air", "minecraft:stone", "minecraft:dirt", .Success⟩
    process_turtle_update st 0 u (some .Dig) =
      (st.setTurtle 0 { t with pending_update := false }, some .Update, none) ∧
    (process_turtle_update st 0 u (some .Dig)).1.world = st.world ∧
    (process_turtle_update st 0 u (some .Dig)).1.turtles.get? 0 =
      some { t with pending_update := false } :=
  c10_pending_update_frame _ 0 _ _ (some .Dig) rfl rfl

/-- C3 (counterexample).  The boundary id equal to `turtles.len()` does not
identify a registered robot (ids are `0 .. len-1`), yet the update endpoint
replies `Poweroff`, not the code-reload command: with no robots registered,
id 0 passes the `id > len` guard (`0 > 0` is false) and falls into
`process_turtle_update`'s missing-turtle branch. -/
theorem c3_unknown_id_counterexample :
    command ⟨[], World.new⟩ 0 ⟨0, "", "", "", .None⟩ none = .Poweroff := by decide

/-- C3 (amended).  An update whose id is *strictly greater* than the number
of registered robots is answered with the code-reload command (`Update`);
the boundary id equal to the count — also unregistered, because of the
off-by-one `id > len` guard — is answered `Poweroff` by the missing-turtle
branch of `process_turtle_update`. -/
theorem c3_unknown_id_amended :
    (∀ (st : LiveState) (id : Nat) (u : TurtleUpdate) (inbox : Option TurtleCommand),
        id > st.turtles.length → command st id u inbox = .Update) ∧
    (∀ (st : LiveState) (id : Nat) (u : TurtleUpdate) (inbox : Option TurtleCommand),
        id = st.turtles.length → command st id u inbox = .Poweroff) := by
  constructor
  · intro st id u inbox hgt
    simp [command, hgt]
  · intro st id u inbox heq
    have hnone : st.turtles.get? id = none := by
      rw [List.get?_eq_none]
      omega
    simp [command, heq, process_turtle_update, hnone]

/-- C3 (witness): both amended clauses on an empty robot registry. -/
theorem c3_unknown_id_amended_witness :
    command ⟨[], World.new⟩ 1 ⟨0, "", "", "", .None⟩ none = .Update ∧
    command ⟨[], World.new⟩ 0 ⟨0, "", "", "", .None⟩ none = .Poweroff :=
  ⟨c3_unknown_id_amended.1 ⟨[], World.new⟩ 1 _ none (by decide),
   c3_unknown_id_amended.2 ⟨[], World.new⟩ 0 _ none rfl⟩

/-! ### Serpent enumeration (`mine.rs`) -/

/-- `step(n, x)`: zig from 0 to `x` and back, stopping on each end
(`mine.rs:216-224`).  Rust's `%` on `i32` is the truncated remainder,
`Int.tmod`. -/
def step (n x : Int) : Int :=
  let half := Int.tmod n x
  let full := Int.tmod n (2 * x)
  if full > x - 1 then x - half - 1 else full

/-- `fill(scale, n)` (`mine.rs:227-234`): the n-th cell of the serpent
through `[0, scale)`.  Rust's `/` on `i32` is truncated division,
`Int.tdiv`; the `assert!(n < volume)` panic guard holds under every claim
hypothesis and is not part of the value. -/
def fill (scale : Vec3) (n : Int) : Vec3 :=
  ⟨step n scale.x,
   step (Int.tdiv n scale.x) scale.y,
   step (Int.tdiv (Int.tdiv n scale.x) scale.y) scale.z⟩

/-- On the claims' domain, `step` is the explicit zig-zag of the Euclidean
quotient's parity. -/
theorem step_eq (m x : Int) (hm : 0 ≤ m) (hx : 0 < x) :
    step m x = if (m / x) % 2 = 1 then x - m % x - 1 else m % x := by
  have hr0 : 0 ≤ m % x := Int.emod_nonneg m (by omega)
  have hrx : m % x < x := Int.emod_lt_of_pos m hx
  have hq2 : (m / x) % 2 = 0 ∨ (m / x) % 2 = 1 := by omega
  have hq20 : 0 ≤ (m / x) % 2 := by omega
  have hfull : m % (2 * x) = x * ((m / x) % 2) + m % x := by
    have hm_eq : x * (m / x) + m % x = m := Int.ediv_add_emod m x
    have hq_eq : 2 * (m / x / 2) + (m / x) % 2 = m / x := Int.ediv_add_emod (m / x) 2
    have hrw : m = x * ((m / x) % 2) + m % x + (2 * x) * (m / x / 2) := by
      nlinarith [hm_eq, hq_eq]
    calc m % (2 * x)
        = (x * ((m / x) % 2) + m % x + (2 * x) * (m / x / 2)) % (2 * x) := by rw [← hrw]
      _ = (x * ((m / x) % 2) + m % x) % (2 * x) := Int.add_mul_emod_self_left _ _ _
      _ = x * ((m / x) % 2) + m % x := by
          refine Int.emod_eq_of_lt (by nlinarith) (by rcases hq2 with h | h <;> rw [h] <;> omega)
  simp only [step]
  rw [Int.tmod_eq_emod hm (by omega), Int.tmod_eq_emod hm (by omega), hfull]
  rcases hq2 with h | h <;> rw [h] <;> split_ifs <;> omega

/-- `step` stays inside `[0, x)`. -/
theorem step_range (m x : Int) (hm : 0 ≤ m) (hx : 0 < x) :
    0 ≤ step m x ∧ step m x < x := by
  have hr0 : 0 ≤ m % x := Int.emod_nonneg m (by omega)
  have hrx : m % x < x := Int.emod_lt_of_pos m hx
  rw [step_eq m x hm hx]
  split <;> omega

/-- Inside a strip (`m % x < x - 1`) the zig-zag moves by one and the
quotient is unchanged. -/
theorem step_succ_strip (m x : Int) (hm : 0 ≤ m) (hx : 0 < x)
    (hlt : m % x < x - 1) :
    (m + 1) / x = m / x ∧ (m + 1) % x = m % x + 1 ∧
      (step m x - step (m + 1) x = 1 ∨ step m x - step (m + 1) x = -1) := by
  have hr0 : 0 ≤ m % x := Int.emod_nonneg m (by omega)
  have hm_eq : x * (m / x) + m % x = m := Int.ediv_add_emod m x
  have hqr : (m + 1) / x = m / x ∧ (m + 1) % x = m % x + 1 :=
    (Int.ediv_emod_unique hx).mpr ⟨by linarith, by omega, by omega⟩
  refine ⟨hqr.1, hqr.2, ?_⟩
  rw [step_eq m x hm hx, step_eq (m + 1) x (by omega) hx, hqr.1, hqr.2]
  rcases (by omega : (m / x) % 2 = 0 ∨ (m / x) % 2 = 1) with h | h <;>
    split_ifs <;> omega

/-- At a strip end (`m % x = x - 1`) the zig-zag pauses and the quotient
steps. -/
theorem step_succ_turn (m x : Int) (hm : 0 ≤ m) (hx : 0 < x)
    (heq : m % x = x - 1) :
    (m + 1) / x = m / x + 1 ∧ (m + 1) % x = 0 ∧ step (m + 1) x = step m x := by
  have hm_eq : x * (m / x) + m % x = m := Int.ediv_add_emod m x
  have hexp : x * (m / x + 1) = x * (m / x) + x := by ring
  have hqr : (m + 1) / x = m / x + 1 ∧ (m + 1) % x = 0 :=
    (Int.ediv_emod_unique hx).mpr ⟨by linarith, by omega, by omega⟩
  refine ⟨hqr.1, hqr.2, ?_⟩
  rw [step_eq m x hm hx, step_eq (m + 1) x (by omega) hx, hqr.1, hqr.2, heq]
  rcases (by omega : (m / x) % 2 = 0 ∨ (m / x) % 2 = 1) with h | h <;>
    split_ifs <;> omega

/-- C9.  Serpent enumeration: for a componentwise positive `scale` and
`0 ≤ n < scale.x·scale.y·scale.z`, `fill(scale, n)` lies within
`[0, scale)` componentwise, and when `n + 1` is also in range the
consecutive cells `fill(scale, n)` and `fill(scale, n+1)` are at L1
distance exactly 1. -/
theorem c9_fill_serpent : ∀ (scale : Vec3) (n : Int),
    0 < scale.x → 0 < scale.y → 0 < scale.z → 0 ≤ n → n < scale.product →
    (0 ≤ (fill scale n).x ∧ (fill scale n).x < scale.x ∧
     0 ≤ (fill scale n).y ∧ (fill scale n).y < scale.y ∧
     0 ≤ (fill scale n).z ∧ (fill scale n).z < scale.z) ∧
    (n + 1 < scale.product →
      Vec3.manhattan (fill scale n) (fill scale (n + 1)) = 1) := by
  rintro ⟨x, y, z⟩ n hx hy hz hn hvol
  simp only [Vec3.product] at hvol
  dsimp only at hx hy hz ⊢
  have htd1 : Int.tdiv n x = n / x := Int.tdiv_eq_ediv hn (by omega)
  have hm0 : 0 ≤ n / x := Int.ediv_nonneg hn (by omega)
  have htd2 : Int.tdiv (n / x) y = n / x / y := Int.tdiv_eq_ediv hm0 (by omega)
  have hk0 : 0 ≤ n / x / y := Int.ediv_nonneg hm0 (by omega)
  constructor
  · simp only [fill, htd1, htd2]
    obtain ⟨h1, h2⟩ := step_range n x hn hx
    obtain ⟨h3, h4⟩ := step_range (n / x) y hm0 hy
    obtain ⟨h5, h6⟩ := step_range (n / x / y) z hk0 hz
    exact ⟨h1, h2, h3, h4, h5, h6⟩
  · intro hvol1
    simp only [Vec3.product] at hvol1
    have hn1 : 0 ≤ n + 1 := by omega
    have htd1' : Int.tdiv (n + 1) x = (n + 1) / x := Int.tdiv_eq_ediv hn1 (by omega)
    have hrx : n % x < x := Int.emod_lt_of_pos n hx
    have hrx0 : 0 ≤ n % x := Int.emod_nonneg n (by omega)
    by_cases hcx : n % x < x - 1
    · -- x strip: x moves by one, quotient (hence y and z) unchanged
      obtain ⟨hdiv, _, hstep⟩ := step_succ_strip n x hn hx hcx
      have htd2' : Int.tdiv ((n + 1) / x) y = n / x / y := by
        rw [hdiv, ← htd2]
      simp only [fill, htd1, htd2, htd1', htd2', hdiv, Vec3.manhattan, Vec3.sub,
        Vec3.abs, Vec3.sum]
      rcases hstep with h | h <;> rw [h] <;> simp
    · have hcx' : n % x = x - 1 := by omega
      obtain ⟨hdiv, _, hstep⟩ := step_succ_turn n x hn hx hcx'
      have hm1 : 0 ≤ n / x + 1 := by omega
      have hry : n / x % y < y := Int.emod_lt_of_pos _ hy
      have hry0 : 0 ≤ n / x % y := Int.emod_nonneg _ (by omega)
      by_cases hcy : n / x % y < y - 1
      · -- y strip: y moves by one, z unchanged
        obtain ⟨hdivy, _, hstepy⟩ := step_succ_strip (n / x) y hm0 hy hcy
        have htd2' : Int.tdiv (n / x + 1) y = (n / x + 1) / y :=
          Int.tdiv_eq_ediv hm1 (by omega)
        simp only [fill, htd1, htd2, htd1', hdiv, htd2', hdivy, Vec3.manhattan,
          Vec3.sub, Vec3.abs, Vec3.sum, hstep]
        rcases hstepy with h | h <;> rw [h] <;> simp
      · have hcy' : n / x % y = y - 1 := by omega
        obtain ⟨hdivy, _, hstepy⟩ := step_succ_turn (n / x) y hm0 hy hcy'
        -- z must still be inside: n + 1 = x*y*(k+1) < x*y*z
        have hqx : x * (n / x) + n % x = n := Int.ediv_add_emod n x
        have hqy : y * (n / x / y) + n / x % y = n / x := Int.ediv_add_emod (n / x) y
        have hn1eq : n + 1 = x * (y * (n / x / y + 1)) := by nlinarith [hqx, hqy]
        have hkz : n / x / y + 1 < z := by
          by_contra hcon
          push_neg at hcon
          have hxy : (0 : Int) < x * y := mul_pos hx hy
          have hmul : x * y * z ≤ x * y * (n / x / y + 1) :=
            mul_le_mul_of_nonneg_left hcon (le_of_lt hxy)
          have hassoc : x * y * (n / x / y + 1) = x * (y * (n / x / y + 1)) := by ring
          linarith [hn1eq, hvol1]
        have hcz : n / x / y % z < z - 1 := by
          have : n / x / y % z = n / x / y := Int.emod_eq_of_lt hk0 (by omega)
          omega
        obtain ⟨hdivz, _, hstepz⟩ := step_succ_strip (n / x / y) z hk0 hz hcz
        have htd2' : Int.tdiv (n / x + 1) y = (n / x + 1) / y :=
          Int.tdiv_eq_ediv hm1 (by omega)
        simp only [fill, htd1, htd2, htd1', hdiv, htd2', hdivy, Vec3.manhattan,
          Vec3.sub, Vec3.abs, Vec3.sum, hstep, hstepy]
        rcases hstepz with h | h <;> rw [h] <;> simp


/-- C9 (witness): the serpent inside a 2×2×2 cube at the strip turn n = 3. -/
theorem c9_fill_serpent_witness :
    Vec3.manhattan (fill ⟨2, 2, 2⟩ 3) (fill ⟨2, 2, 2⟩ (3 + 1)) = 1 ∧
    0 ≤ (fill ⟨2, 2, 2⟩ 3).x ∧ (fill ⟨2, 2, 2⟩ 3).x < (⟨2, 2, 2⟩ : Vec3).x :=
  ⟨(c9_fill_serpent ⟨2, 2, 2⟩ 3 (by decide) (by decide) (by decide) (by decide)
      (by decide)).2 (by decide),
   (c9_fill_serpent ⟨2, 2, 2⟩ 3 (by decide) (by decide) (by decide) (by decide)
      (by decide)).1.1,
   (c9_fill_serpent ⟨2, 2, 2⟩ 3 (by decide) (by decide) (by decide) (by decide)
      (by decide)).1.2.1⟩

/-! ### Pathfinder (`paths.rs`)

`route_to` locks the world once and runs `pathfinding::prelude::astar` over
`next` with the L1 heuristic.  The A* of the `pathfinding` crate is an
external dependency; it is embedded as the textbook best-first loop: a
frontier of entries (node, reversed path from the start, accumulated cost),
popping a minimal `cost + heuristic` entry, testing the success predicate on
the popped node, and expanding its successors.  The Rust `done` closure
decrements `limit` once per success test and reports success when it hits
zero, after which `route_to` discards the result; that bookkeeping is the
fuel parameter of `astarLoop` (fuel exhaustion yields `none`, exactly the
discarded timeout).  The crate also de-duplicates nodes by best known cost;
the embedding omits that — it changes which route is found, never the
properties of a returned route, which is what the claims quantify over. -/

/-- `TRANSPARENT` (`paths.rs:101-105`). -/
def TRANSPARENT : List String :=
  ["minecraft:air", "minecraft:water", "minecraft:lava"]

/-- `GARBAGE` (`paths.rs:108-124`). -/
def GARBAGE : List String :=
  ["minecraft:stone", "minecraft:dirt", "minecraft:andesite", "minecraft:sand",
   "minecraft:gravel", "minecraft:sandstone", "minecraft:deepslate",
   "twigs:rhyolite", "minecraft:spruce_leaves", "minecraft:oak_leaves",
   "traverse:fir_leaves", "terrestria:hemlock_leaves",
   "wilderwild:brown_shelf_fungus", "wilderwild:red_shelf_fungus",
   "minecraft:snow"]

/-- `UNKNOWN` (`paths.rs:127`): optimistic cost of an uncharted cell. -/
def UNKNOWN : Option Nat := some 2

/-- `difficulty` (`paths.rs:130-138`). -/
def difficulty (name : String) : Option Nat :=
  if TRANSPARENT.contains name then some 1
  else if GARBAGE.contains name then some 2
  else none

/-- The `insert` helper inside `next` (`paths.rs:69-80`): emit the move when
the cell is unknown (at cost `UNKNOWN`) or known with a `difficulty`. -/
def insertMove (point : Vec3) (orientation : Direction) (w : World) :
    List (Position × Nat) :=
  match (w.get point).map (fun b => difficulty b.name) |>.getD UNKNOWN with
  | some d => [(⟨point, orientation⟩, d)]
  | none => []

/-- `next` (`paths.rs:66-98`): rotate in place at cost 1; move ahead, up or
down subject to `difficulty` (backward is intentionally not generated). -/
def next (a : Position) (w : World) : List (Position × Nat) :=
  [(⟨a.pos, a.dir.left⟩, 1), (⟨a.pos, a.dir.right⟩, 1)] ++
    insertMove (a.pos.add a.dir.unit) a.dir w ++
    insertMove (a.pos.add Vec3.unitY) a.dir w ++
    insertMove (a.pos.sub Vec3.unitY) a.dir w

/-- `LOOKUP_LIMIT` (`paths.rs:9`). -/
def LOOKUP_LIMIT : Nat := 100000000

/-- One frontier entry of the A* search: the node, the reversed path from
the start (head = node), and the accumulated edge cost. -/
structure SearchEntry where
  pos : Position
  path : List Position
  cost : Nat
deriving DecidableEq, Repr

/-- Priority of an entry: accumulated cost plus heuristic. -/
def entryKey (h : Position → Nat) (e : SearchEntry) : Nat := e.cost + h e.pos

/-- Remove a minimal-key entry from the frontier (the first one on ties). -/
def popMin (h : Position → Nat) : List SearchEntry →
    Option (SearchEntry × List SearchEntry)
  | [] => none
  | e :: es =>
    match popMin h es with
    | none => some (e, [])
    | some (m, rest) =>
      if entryKey h e ≤ entryKey h m then some (e, es) else some (m, e :: rest)

/-- Successor entries of a settled entry. -/
def expand (succ : Position → List (Position × Nat)) (e : SearchEntry) :
    List SearchEntry :=
  (succ e.pos).map (fun pc => ⟨pc.1, pc.1 :: e.path, e.cost + pc.2⟩)

/-- The A* main loop (see the section comment): fuel-bounded best-first
search returning the found path in travel order. -/
def astarLoop (succ : Position → List (Position × Nat))
    (goal : Position → Bool) (h : Position → Nat) :
    Nat → List SearchEntry → Option (List Position)
  | 0, _ => none
  | fuel + 1, frontier =>
    match popMin h frontier with
    | none => none
    | some (e, rest) =>
      if goal e.pos then some e.path.reverse
      else astarLoop succ goal h fuel (rest ++ expand succ e)

/-- `route_to` (`paths.rs:34-64`): A* from `a` towards cell `tgt` under the
success predicate `done`, with the L1 heuristic and the node budget. -/
def route_to (w : World) (a : Position) (tgt : Vec3) (done : Position → Bool) :
    Option (List Position) :=
  astarLoop (fun p => next p w) done (fun p => ((p.pos.sub tgt).abs).sum.toNat)
    LOOKUP_LIMIT [⟨a, [a], 0⟩]

/-- `route` (`paths.rs:22-32`): exact-pose goal, short-circuiting when the
goal cell is known and `difficulty` yields nothing. -/
def route (w : World) (a tgt : Position) : Option (List Position) :=
  if (w.get tgt.pos).elim false (fun b => (difficulty b.name).isNone) then none
  else route_to w a tgt.pos (fun p => p = tgt)

/-- `route_facing` (`paths.rs:11-20`): goal is any pose whose facing cell,
cell above or cell below is `tgt`; no short-circuit. -/
def route_facing (w : World) (a : Position) (tgt : Vec3) : Option (List Position) :=
  route_to w a tgt (fun p =>
    tgt = p.pos.add p.dir.unit || tgt = p.pos.add Vec3.unitY ||
      tgt = p.pos.sub Vec3.unitY)

theorem popMin_spec (h : Position → Nat) :
    ∀ (fr : List SearchEntry) (e : SearchEntry) (rest : List SearchEntry),
      popMin h fr = some (e, rest) → e ∈ fr ∧ ∀ x ∈ rest, x ∈ fr := by
  intro fr
  induction fr with
  | nil => intro e rest hp; simp [popMin] at hp
  | cons a es ih =>
    intro e rest hp
    rcases hm : popMin h es with _ | ⟨m, r⟩ <;> simp only [popMin, hm] at hp
    · rcases hp with ⟨rfl, rfl⟩
      exact ⟨List.mem_cons_self a es, by intro x hx; simp at hx⟩
    · obtain ⟨hmem, hsub⟩ := ih m r hm
      split_ifs at hp with hk <;> rcases hp with ⟨rfl, rfl⟩
      · exact ⟨List.mem_cons_self _ _, fun x hx => List.mem_cons_of_mem _ hx⟩
      · refine ⟨List.mem_cons_of_mem a hmem, ?_⟩
        intro x hx
        rcases List.mem_cons.mp hx with rfl | hx'
        · exact List.mem_cons_self x es
        · exact List.mem_cons_of_mem a (hsub x hx')

/-- An entry whose reversed path is a genuine successor chain back to the
start. -/
def GoodEntry (succ : Position → List (Position × Nat)) (start : Position)
    (e : SearchEntry) : Prop :=
  e.path.head? = some e.pos ∧ e.path.getLast? = some start ∧
    List.Chain' (fun p q => ∃ c, (p, c) ∈ succ q) e.path

theorem expand_good (succ : Position → List (Position × Nat)) (start : Position)
    (e : SearchEntry) (hg : GoodEntry succ start e) :
    ∀ x ∈ expand succ e, GoodEntry succ start x := by
  intro x hx
  obtain ⟨hh, hl, hc⟩ := hg
  simp only [expand, List.mem_map] at hx
  obtain ⟨⟨p, c⟩, hpc, rfl⟩ := hx
  refine ⟨rfl, ?_, ?_⟩
  · show (p :: e.path).getLast? = some start
    rcases hpath : e.path with _ | ⟨ph, pt⟩
    · rw [hpath] at hh; exact absurd hh (by simp)
    · have hl' := hl
      rw [hpath] at hl'
      rw [List.getLast?_cons_cons]
      exact hl'
  · show List.Chain' _ (p :: e.path)
    rw [List.chain'_cons']
    refine ⟨?_, hc⟩
    intro y hy
    rw [hh] at hy
    simp at hy
    subst hy
    exact ⟨c, hpc⟩

theorem astarLoop_sound (succ : Position → List (Position × Nat))
    (goal : Position → Bool) (h : Position → Nat) (start : Position) :
    ∀ (fuel : Nat) (frontier : List SearchEntry) (p : List Position),
      (∀ e ∈ frontier, GoodEntry succ start e) →
      astarLoop succ goal h fuel frontier = some p →
      ∃ e, GoodEntry succ start e ∧ goal e.pos = true ∧ p = e.path.reverse := by
  intro fuel
  induction fuel with
  | zero => intro frontier p _ hres; simp [astarLoop] at hres
  | succ f ih =>
    intro frontier p hgood hres
    rcases hp : popMin h frontier with _ | ⟨e, rest⟩ <;>
      simp only [astarLoop, hp] at hres
    · exact Option.noConfusion hres
    · obtain ⟨hmem, hsub⟩ := popMin_spec h frontier e rest hp
      by_cases hgoal : goal e.pos
      · rw [if_pos hgoal] at hres
        exact ⟨e, hgood e hmem, hgoal, (Option.some.inj hres).symm⟩
      · rw [if_neg hgoal] at hres
        refine ih (rest ++ expand succ e) p ?_ hres
        intro x hx
        rcases List.mem_append.mp hx with hx' | hx'
        · exact hgood x (hsub x hx')
        · exact expand_good succ start e (hgood e hmem) x hx'

theorem route_to_sound (w : World) (a : Position) (tgt : Vec3)
    (done : Position → Bool) (p : List Position)
    (hres : route_to w a tgt done = some p) :
    p.head? = some a ∧
    (∃ e, p.getLast? = some e ∧ done e = true) ∧
    List.Chain' (fun x y => ∃ c, (y, c) ∈ next x w) p := by
  have hstart : ∀ e ∈ [(⟨a, [a], 0⟩ : SearchEntry)],
      GoodEntry (fun q => next q w) a e := by
    intro e he
    simp at he
    subst he
    exact ⟨rfl, rfl, by simp⟩
  obtain ⟨e, ⟨hh, hl, hc⟩, hgoal, rfl⟩ :=
    astarLoop_sound (fun q => next q w) done _ a LOOKUP_LIMIT _ p hstart hres
  refine ⟨?_, ⟨e.pos, ?_, hgoal⟩, ?_⟩
  · rw [List.head?_reverse, hl]
  · rw [List.getLast?_reverse, hh]
  · rw [List.chain'_reverse]
    exact hc


/-- A known cell the robot may neither enter nor dig. -/
def KnownHard (w : World) (v : Vec3) : Prop :=
  ∃ b, w.get v = some b ∧ difficulty b.name = none

theorem insertMove_mem (w : World) (point : Vec3) (ori : Direction)
    (q : Position) (c : Nat) (hm : (q, c) ∈ insertMove point ori w) :
    q = ⟨point, ori⟩ ∧ ¬ KnownHard w point := by
  simp only [insertMove] at hm
  rcases hw : w.get point with _ | b <;> rw [hw] at hm
  · simp only [Option.map_none', Option.getD, UNKNOWN] at hm
    simp at hm
    exact ⟨by simp [hm], by rintro ⟨b, hb, _⟩; rw [hw] at hb; exact Option.noConfusion hb⟩
  · simp only [Option.map_some', Option.getD] at hm
    rcases hd : difficulty b.name with _ | d <;> rw [hd] at hm
    · simp at hm
    · simp at hm
      refine ⟨by simp [hm], ?_⟩
      rintro ⟨b', hb', hd'⟩
      rw [hw] at hb'
      cases Option.some.inj hb'
      rw [hd] at hd'
      exact Option.noConfusion hd'

theorem next_mem (w : World) (a q : Position) (c : Nat)
    (hm : (q, c) ∈ next a w) :
    q = ⟨a.pos, a.dir.left⟩ ∨ q = ⟨a.pos, a.dir.right⟩ ∨
    ((q = ⟨a.pos.add a.dir.unit, a.dir⟩ ∨ q = ⟨a.pos.add Vec3.unitY, a.dir⟩ ∨
        q = ⟨a.pos.sub Vec3.unitY, a.dir⟩) ∧ ¬ KnownHard w q.pos) := by
  simp only [next] at hm
  rcases List.mem_append.mp hm with h | h3
  · rcases List.mem_append.mp h with h | h2
    · rcases List.mem_append.mp h with h01 | h1
      · simp only [List.mem_cons, List.not_mem_nil, or_false] at h01
        rcases h01 with h | h
        · exact Or.inl (congrArg Prod.fst h)
        · exact Or.inr (Or.inl (congrArg Prod.fst h))
      · obtain ⟨hq, hs⟩ := insertMove_mem w _ _ q c h1
        exact Or.inr (Or.inr ⟨Or.inl hq, by rw [hq]; exact hs⟩)
    · obtain ⟨hq, hs⟩ := insertMove_mem w _ _ q c h2
      exact Or.inr (Or.inr ⟨Or.inr (Or.inl hq), by rw [hq]; exact hs⟩)
  · obtain ⟨hq, hs⟩ := insertMove_mem w _ _ q c h3
    exact Or.inr (Or.inr ⟨Or.inr (Or.inr hq), by rw [hq]; exact hs⟩)


theorem left_ne_right (d : Direction) : d.right ≠ d.left := by
  cases d <;> decide

theorem unit_y (d : Direction) : d.unit.y = 0 := by
  cases d <;> rfl

theorem add_unit_ne (v : Vec3) (d : Direction) : v.add d.unit ≠ v := by
  intro h
  have hx := congrArg Vec3.x h
  have hz := congrArg Vec3.z h
  simp only [Vec3.add] at hx hz
  cases d <;> simp only [Direction.unit] at hx hz <;> omega

theorem diff_left (a : Position) :
    a.difference ⟨a.pos, a.dir.left⟩ = some .Left := by
  simp [Position.difference]

theorem diff_right (a : Position) :
    a.difference ⟨a.pos, a.dir.right⟩ = some .Right := by
  unfold Position.difference
  rw [if_pos rfl, if_neg (left_ne_right a.dir), if_pos rfl]

theorem diff_forward (a : Position) :
    a.difference ⟨a.pos.add a.dir.unit, a.dir⟩ = some (.Forward 1) := by
  unfold Position.difference
  rw [if_neg (fun h => add_unit_ne a.pos a.dir h.symm), if_pos rfl, if_pos rfl]

theorem diff_up (a : Position) :
    a.difference ⟨a.pos.add Vec3.unitY, a.dir⟩ = some (.Up 1) := by
  unfold Position.difference
  rw [if_neg ?h1, if_pos rfl, if_neg ?h2, if_neg ?h3, if_pos rfl]
  case h1 =>
    intro h
    have hy := congrArg Vec3.y h
    simp only [Vec3.add, Vec3.unitY] at hy
    omega
  case h2 =>
    intro h
    have hy := congrArg Vec3.y h
    simp only [Vec3.add, Vec3.unitY, unit_y] at hy
    omega
  case h3 =>
    intro h
    have hy := congrArg Vec3.y h
    simp only [Vec3.add, Vec3.sub, Vec3.unitY, unit_y] at hy
    omega

theorem diff_down (a : Position) :
    a.difference ⟨a.pos.sub Vec3.unitY, a.dir⟩ = some (.Down 1) := by
  unfold Position.difference
  rw [if_neg ?h1, if_pos rfl, if_neg ?h2, if_neg ?h3, if_neg ?h4, if_pos rfl]
  case h1 =>
    intro h
    have hy := congrArg Vec3.y h
    simp only [Vec3.sub, Vec3.unitY] at hy
    omega
  case h2 =>
    intro h
    have hy := congrArg Vec3.y h
    simp only [Vec3.add, Vec3.sub, Vec3.unitY, unit_y] at hy
    omega
  case h3 =>
    intro h
    have hy := congrArg Vec3.y h
    simp only [Vec3.sub, Vec3.unitY, unit_y] at hy
    omega
  case h4 =>
    intro h
    have hy := congrArg Vec3.y h
    simp only [Vec3.add, Vec3.sub, Vec3.unitY] at hy
    omega

theorem man_self (v : Vec3) : Vec3.manhattan v v = 0 := by
  simp [Vec3.manhattan, Vec3.sub, Vec3.abs, Vec3.sum]

theorem man_add_unit (v : Vec3) (d : Direction) :
    Vec3.manhattan v (v.add d.unit) = 1 := by
  cases d <;>
    simp only [Vec3.manhattan, Vec3.sub, Vec3.add, Vec3.abs, Vec3.sum,
      Direction.unit, Int.abs_eq_natAbs] <;> omega

theorem man_add_unitY (v : Vec3) : Vec3.manhattan v (v.add Vec3.unitY) = 1 := by
  simp only [Vec3.manhattan, Vec3.sub, Vec3.add, Vec3.abs, Vec3.sum,
    Vec3.unitY, Int.abs_eq_natAbs]
  omega

theorem man_sub_unitY (v : Vec3) : Vec3.manhattan v (v.sub Vec3.unitY) = 1 := by
  simp only [Vec3.manhattan, Vec3.sub, Vec3.abs, Vec3.sum, Vec3.unitY,
    Int.abs_eq_natAbs]
  omega

theorem man_triangle (a b c : Vec3) :
    Vec3.manhattan a c ≤ Vec3.manhattan a b + Vec3.manhattan b c := by
  simp only [Vec3.manhattan, Vec3.sub, Vec3.abs, Vec3.sum]
  have hx := abs_sub_le a.x b.x c.x
  have hy := abs_sub_le a.y b.y c.y
  have hz := abs_sub_le a.z b.z c.z
  linarith

theorem chain_manhattan (r : List Position)
    (hc : List.Chain' (fun p q => Vec3.manhattan p.pos q.pos ≤ 1) r) :
    ∀ a b, r.head? = some a → r.getLast? = some b →
      Vec3.manhattan a.pos b.pos ≤ (r.length : Int) - 1 := by
  induction r with
  | nil => intro a b ha _; exact absurd ha (by simp)
  | cons x t ih =>
    intro a b ha hb
    have hax : x = a := by simpa using ha
    rcases t with _ | ⟨y, t'⟩
    · have hxb : x = b := by simpa using hb
      rw [← hax, ← hxb]
      simp [man_self]
    · have hstep : Vec3.manhattan x.pos y.pos ≤ 1 := (List.chain'_cons.mp hc).1
      have hchain := (List.chain'_cons.mp hc).2
      have hb' : (y :: t').getLast? = some b := by
        rw [← List.getLast?_cons_cons]
        exact hb
      have ihy := ih hchain y b rfl hb'
      have htri := man_triangle x.pos y.pos b.pos
      have hlen : ((x :: y :: t').length : Int) = ((y :: t').length : Int) + 1 := by
        simp
      rw [← hax]
      omega


/-- One route step as the claim states it: the two poses are connected by a
single primitive command — forward along the facing, up, down, or a 90°
rotation (backward is never planned). -/
def AdjacentStep (p q : Position) : Prop :=
  ∃ cmd, p.difference q = some cmd ∧
    (cmd = .Left ∨ cmd = .Right ∨ cmd = .Forward 1 ∨ cmd = .Up 1 ∨ cmd = .Down 1)

/-- One route step is sound: it stays in place (rotation) or enters a cell
that is not known-hard. -/
def SoundStep (w : World) (p q : Position) : Prop :=
  q.pos = p.pos ∨ ¬ KnownHard w q.pos

theorem routeStep_payload (w : World) (p q : Position)
    (h : ∃ c, (q, c) ∈ next p w) :
    AdjacentStep p q ∧ SoundStep w p q ∧ Vec3.manhattan p.pos q.pos ≤ 1 := by
  obtain ⟨c, hc⟩ := h
  rcases next_mem w p q c hc with h | h | ⟨hmove, hsound⟩
  · subst h
    exact ⟨⟨.Left, diff_left p, Or.inl rfl⟩, Or.inl rfl, by rw [man_self]; omega⟩
  · subst h
    exact ⟨⟨.Right, diff_right p, Or.inr (Or.inl rfl)⟩, Or.inl rfl,
      by rw [man_self]; omega⟩
  · rcases hmove with h | h | h <;> subst h
    · exact ⟨⟨.Forward 1, diff_forward p, by simp⟩, Or.inr hsound,
        le_of_eq (man_add_unit p.pos p.dir)⟩
    · exact ⟨⟨.Up 1, diff_up p, by simp⟩, Or.inr hsound,
        le_of_eq (man_add_unitY p.pos)⟩
    · exact ⟨⟨.Down 1, diff_down p, by simp⟩, Or.inr hsound,
        le_of_eq (man_sub_unitY p.pos)⟩

/-- C8.  Every route returned by either pathfinder variant starts at the
queried pose, ends at a pose satisfying its goal (the exact target for
`route`; a pose facing the cell for `route_facing`), its successive elements
are adjacent via one primitive command (forward, up, down or a 90°
rotation), no step enters a known cell whose `difficulty` yields no cost,
and the number of steps is at least the L1 cell distance from the start to
the route's goal pose. -/
theorem c8_pathfinder_routes :
    ∀ (w : World) (a tgtP : Position) (tgtC : Vec3) (r : List Position),
      (route w a tgtP = some r →
        r.head? = some a ∧ r.getLast? = some tgtP ∧
        List.Chain' AdjacentStep r ∧
        List.Chain' (SoundStep w) r ∧
        Vec3.manhattan a.pos tgtP.pos ≤ (r.length : Int) - 1) ∧
      (route_facing w a tgtC = some r →
        r.head? = some a ∧
        List.Chain' AdjacentStep r ∧
        List.Chain' (SoundStep w) r ∧
        ∃ e, r.getLast? = some e ∧
          (tgtC = e.pos.add e.dir.unit ∨ tgtC = e.pos.add Vec3.unitY ∨
            tgtC = e.pos.sub Vec3.unitY) ∧
          Vec3.manhattan a.pos e.pos ≤ (r.length : Int) - 1) := by
  intro w a tgtP tgtC r
  constructor
  · intro hres
    unfold route at hres
    split_ifs at hres with hsc
    obtain ⟨hhead, ⟨e, hlast, hdone⟩, hchain⟩ := route_to_sound w a tgtP.pos _ r hres
    have hetgt : e = tgtP := by simpa using hdone
    subst hetgt
    have hadj : List.Chain' AdjacentStep r :=
      hchain.imp (fun p q h => (routeStep_payload w p q h).1)
    have hsound : List.Chain' (SoundStep w) r :=
      hchain.imp (fun p q h => (routeStep_payload w p q h).2.1)
    have hman : List.Chain' (fun p q => Vec3.manhattan p.pos q.pos ≤ 1) r :=
      hchain.imp (fun p q h => (routeStep_payload w p q h).2.2)
    exact ⟨hhead, hlast, hadj, hsound, chain_manhattan r hman a e hhead hlast⟩
  · intro hres
    unfold route_facing at hres
    obtain ⟨hhead, ⟨e, hlast, hdone⟩, hchain⟩ := route_to_sound w a tgtC _ r hres
    have hadj : List.Chain' AdjacentStep r :=
      hchain.imp (fun p q h => (routeStep_payload w p q h).1)
    have hsound : List.Chain' (SoundStep w) r :=
      hchain.imp (fun p q h => (routeStep_payload w p q h).2.1)
    have hman : List.Chain' (fun p q => Vec3.manhattan p.pos q.pos ≤ 1) r :=
      hchain.imp (fun p q h => (routeStep_payload w p q h).2.2)
    refine ⟨hhead, hadj, hsound, e, hlast, ?_, chain_manhattan r hman a e hhead hlast⟩
    have hd : (tgtC = e.pos.add e.dir.unit ∨ tgtC = e.pos.add Vec3.unitY) ∨
        tgtC = e.pos.sub Vec3.unitY := by simpa using hdone
    tauto

/-- C4 (amended).  Only `route` short-circuits: when the goal cell is known
and `difficulty` yields no cost it returns `None` without searching.
(`route_facing` has no such check — see the counterexample.) -/
theorem c4_route_shortcircuit_amended : ∀ (w : World) (a tgt : Position) (b : Block),
    w.get tgt.pos = some b → difficulty b.name = none → route w a tgt = none := by
  intro w a tgt b hget hdiff
  simp [route, hget, hdiff]

/-- C8 (witness): the one-step forward route in an empty world. -/
theorem c8_pathfinder_routes_witness :
    ([⟨⟨0, 0, 0⟩, Direction.North⟩, ⟨⟨0, 0, -1⟩, Direction.North⟩] :
        List Position).head? = some ⟨⟨0, 0, 0⟩, Direction.North⟩ ∧
    ([⟨⟨0, 0, 0⟩, Direction.North⟩, ⟨⟨0, 0, -1⟩, Direction.North⟩] :
        List Position).getLast? = some ⟨⟨0, 0, -1⟩, Direction.North⟩ ∧
    List.Chain' AdjacentStep
      [⟨⟨0, 0, 0⟩, Direction.North⟩, ⟨⟨0, 0, -1⟩, Direction.North⟩] ∧
    List.Chain' (SoundStep World.new)
      [⟨⟨0, 0, 0⟩, Direction.North⟩, ⟨⟨0, 0, -1⟩, Direction.North⟩] ∧
    Vec3.manhattan ⟨0, 0, 0⟩ ⟨0, 0, -1⟩ ≤
      (([⟨⟨0, 0, 0⟩, Direction.North⟩, ⟨⟨0, 0, -1⟩, Direction.North⟩] :
        List Position).length : Int) - 1 :=
  (c8_pathfinder_routes World.new ⟨⟨0, 0, 0⟩, .North⟩ ⟨⟨0, 0, -1⟩, .North⟩
    ⟨0, 0, 0⟩ _).1 (by decide)

/-- C4 (counterexample).  With the goal cell known to hold
`minecraft:obsidian` — which is neither transparent nor garbage —
`route_facing` does *not* return failure: starting already facing the cell
it returns the trivial one-pose route, although the claim asserts both
variants return `None` without searching. -/
theorem c4_route_facing_counterexample :
    difficulty "minecraft:obsidian" = none ∧
    (World.new.set ⟨"minecraft:obsidian", ⟨0, 0, -1⟩⟩).get ⟨0, 0, -1⟩ =
      some ⟨"minecraft:obsidian", ⟨0, 0, -1⟩⟩ ∧
    route_facing (World.new.set ⟨"minecraft:obsidian", ⟨0, 0, -1⟩⟩)
        ⟨⟨0, 0, 0⟩, .North⟩ ⟨0, 0, -1⟩ = some [⟨⟨0, 0, 0⟩, .North⟩] :=
  ⟨by decide, by decide, by decide⟩

/-- C4 (witness): the short-circuit of `route` at the same world. -/
theorem c4_route_shortcircuit_amended_witness :
    route (World.new.set ⟨"minecraft:obsidian", ⟨0, 0, -1⟩⟩)
        ⟨⟨0, 0, 0⟩, .North⟩ ⟨⟨0, 0, -1⟩, .North⟩ = none :=
  c4_route_shortcircuit_amended (World.new.set ⟨"minecraft:obsidian", ⟨0, 0, -1⟩⟩)
    ⟨⟨0, 0, 0⟩, .North⟩ ⟨⟨0, 0, -1⟩, .North⟩ ⟨"minecraft:obsidian", ⟨0, 0, -1⟩⟩
    (by decide) (by decide)

end Avarus
